import Mathlib

/-!
# Query annotation metadata (`internal/metadata/meta.go`)

A shallow embedding of the annotation recogniser, the annotation parser and
the block scanner of `meta.go`, followed by the properties proved about them.

Modelling conventions.

* A Go `string` holding UTF-8 text is a `List Char` (the sequence of its code
  points).  `strings.HasPrefix`, `strings.Split` with a one-character separator
  and `strings.TrimSpace` act on such text exactly as the list functions below.
* `error` is `Option GoError`, `none` being `nil`.  A `fmt.Errorf` value is kept
  as its format string together with its single argument.
* A function that can panic at run time returns `Option`, `none` being the
  panic.  The only partial operations of the file are the slice expression
  `part[:len(part)-1]` and the index expressions `part[2]`, `part[3]`.
* `unicode.IsLetter` and `unicode.IsDigit` follow the Go library: the Latin-1
  range is decided by the fixed property table, every other code point is looked
  up in the range tables `unicode.Letter` and `unicode.Digit`, which are taken as
  a parameter (`RangeTables`).
-/

namespace Metadata

/-! ## Library functions used by the source -/

/-- Go strings holding UTF-8 text, as the list of their code points. -/
abbrev GoString := List Char

/-- The range tables `unicode.Letter` and `unicode.Digit`, consulted only for
code points above `unicode.MaxLatin1`. -/
structure RangeTables where
  Letter : Char → Bool
  Digit : Char → Bool

/-- The tables in which no code point above Latin-1 is a letter or a digit;
used to evaluate the functions on ASCII inputs, where the tables are never
consulted. -/
def latin1Tables : RangeTables := ⟨fun _ => false, fun _ => false⟩

/-- The constant `unicode.MaxLatin1`. -/
def MaxLatin1 : Nat := 0xFF

/-- The Latin-1 code points whose entry in the property table of package
`unicode` has a letter bit set: `A-Z`, `a-z`, `U+00AA`, `U+00B5`, `U+00BA`,
`U+00C0-U+00D6`, `U+00D8-U+00F6`, `U+00F8-U+00FF`. -/
def latin1Letter (r : Nat) : Bool :=
  (0x41 ≤ r && r ≤ 0x5A) || (0x61 ≤ r && r ≤ 0x7A) || r == 0xAA || r == 0xB5 || r == 0xBA ||
  (0xC0 ≤ r && r ≤ 0xD6) || (0xD8 ≤ r && r ≤ 0xF6) || (0xF8 ≤ r && r ≤ 0xFF)

/-- The function `unicode.IsLetter`. -/
def IsLetter (u : RangeTables) (c : Char) : Bool :=
  if c.toNat ≤ MaxLatin1 then latin1Letter c.toNat else u.Letter c

/-- The function `unicode.IsDigit`. -/
def IsDigit (u : RangeTables) (c : Char) : Bool :=
  if c.toNat ≤ MaxLatin1 then (0x30 ≤ c.toNat && c.toNat ≤ 0x39) else u.Digit c

/-- The function `unicode.IsSpace`: the Latin-1 cases are listed in the
function itself, the others are the table `unicode.White_Space`. -/
def IsSpace (c : Char) : Bool :=
  let r := c.toNat
  if r ≤ MaxLatin1 then
    r == 0x09 || r == 0x0A || r == 0x0B || r == 0x0C || r == 0x0D || r == 0x20 ||
    r == 0x85 || r == 0xA0
  else
    r == 0x1680 || (0x2000 ≤ r && r ≤ 0x200A) || r == 0x2028 || r == 0x2029 ||
    r == 0x202F || r == 0x205F || r == 0x3000

/-- The function `strings.HasPrefix`. -/
def HasPrefix (s pfx : GoString) : Bool := pfx.isPrefixOf s

/-- The function `strings.TrimSpace`: leading and trailing white space removed. -/
def TrimSpace (s : GoString) : GoString :=
  ((s.dropWhile IsSpace).reverse.dropWhile IsSpace).reverse

/-- The function `strings.Split` for a separator of one character: the pieces
of `s` between the occurrences of `sep`, at least one piece. -/
def Split : GoString → Char → List GoString
  | [], _ => [[]]
  | c :: cs, sep =>
    if c = sep then [] :: Split cs sep
    else
      match Split cs sep with
      | [] => [[c]]
      | h :: t => (c :: h) :: t

/-- The slice expression `s[:hi]` on a slice whose capacity is its length: a
run-time panic (`none`) unless `0 ≤ hi ≤ len(s)`. -/
def sliceTo {α : Type} (s : List α) (hi : Int) : Option (List α) :=
  if 0 ≤ hi ∧ hi ≤ (s.length : Int) then some (s.take hi.toNat) else none

/-- An error value built by `fmt.Errorf` from a format and one argument. -/
structure GoError where
  format : String
  arg : GoString
  deriving DecidableEq, Repr

/-- The function `fmt.Errorf` with one argument. -/
def Errorf (format : String) (arg : GoString) : GoError := ⟨format, arg⟩

/-! ## The source file -/

/-- The struct `CommentSyntax`. -/
structure CommentSyntax where
  Dash : Bool
  Hash : Bool
  SlashStar : Bool
  deriving DecidableEq, Repr

def CmdExec : GoString := ":exec".toList
def CmdExecResult : GoString := ":execresult".toList
def CmdExecRows : GoString := ":execrows".toList
def CmdMany : GoString := ":many".toList
def CmdOne : GoString := ":one".toList

/-- The loop `for i, c := range name` of `validateQueryName`; `i` is the byte
offset of `c`, `name` the whole name (used in the message only). -/
def validateQueryName.loop (u : RangeTables) (name : GoString) : Nat → GoString → Option GoError
  | _, [] => none
  | i, c :: rest =>
    let isLetter := IsLetter u c || c == '_'
    let isDigit := IsDigit u c
    if i == 0 && !isLetter then
      some (Errorf "invalid query name %q" name)
    else if !(isLetter || isDigit) then
      some (Errorf "invalid query name %q" name)
    else
      validateQueryName.loop u name (i + c.utf8Size) rest

/-- The function `validateQueryName`. -/
def validateQueryName (u : RangeTables) (name : GoString) : Option GoError :=
  if name.length == 0 then
    some (Errorf "invalid query name: %q" name)
  else
    validateQueryName.loop u name 0 name

/-- The function `getPrefix`. -/
def getPrefix (line : GoString) (commentStyle : CommentSyntax) : GoString := Id.run do
  let mut pfx : GoString := []
  if HasPrefix line "--".toList then
    if !commentStyle.Dash then
      return pfx
    pfx := "-- name:".toList
  if HasPrefix line "/*".toList then
    if !commentStyle.SlashStar then
      return pfx
    pfx := "/* name:".toList
  if HasPrefix line "#".toList then
    if !commentStyle.Hash then
      return pfx
    pfx := "# name:".toList
  return pfx

/-- The body of the loop of `Parse` from the test `len(part) == 2` on, for the
parts `part` of `line`: every path through it returns.  `none` is a run-time
panic. -/
def Parse.check (u : RangeTables) (line : GoString) (part : List GoString) :
    Option (GoString × GoString × Option GoError) := do
  if part.length == 2 then
    return ([], [], some (Errorf
      "missing query type [':one', ':many', ':exec', ':execrows', ':execresult']: %s" line))
  if part.length != 4 then
    return ([], [], some (Errorf "invalid query comment: %s" line))
  let queryName ← part[2]?
  let queryType := TrimSpace (← part[3]?)
  if !(queryType == CmdOne || queryType == CmdMany || queryType == CmdExec ||
      queryType == CmdExecResult || queryType == CmdExecRows) then
    return ([], [], some (Errorf "invalid query type: %s" queryType))
  match validateQueryName u queryName with
  | some err => return ([], [], some err)
  | none => return (queryName, queryType, none)

/-- The body of the loop of `Parse` once `line` has passed the two `continue`
tests: the parts of the line, without the last one for a `/*` line, then
`Parse.check`.  `none` is a run-time panic. -/
def Parse.body (u : RangeTables) (line : GoString) :
    Option (GoString × GoString × Option GoError) := do
  let mut part := Split (TrimSpace line) ' '
  if HasPrefix line "/*".toList then
    part ← sliceTo part ((part.length : Int) - 1)
  Parse.check u line part

/-- The loop `for _, line := range strings.Split(t, "\n")` of `Parse`. -/
def Parse.loop (u : RangeTables) (commentStyle : CommentSyntax) :
    List GoString → Option (GoString × GoString × Option GoError)
  | [] => some ([], [], none)
  | line :: rest =>
    let pfx := getPrefix line commentStyle
    if pfx == [] then Parse.loop u commentStyle rest
    else if !HasPrefix line pfx then Parse.loop u commentStyle rest
    else Parse.body u line

/-- The function `Parse`: name, query type and error. -/
def Parse (u : RangeTables) (t : GoString) (commentStyle : CommentSyntax) :
    Option (GoString × GoString × Option GoError) :=
  Parse.loop u commentStyle (Split t '\n')

/-- The struct `Query`. -/
structure Query where
  Name : GoString
  SQL : GoString
  Line : Nat
  deriving DecidableEq, Repr

/-- The struct `multierr.FileError`, with the two fields the source sets. -/
structure FileError where
  Line : Nat
  Err : GoError
  deriving DecidableEq, Repr

/-- The local variables `qs`, `next` and `merr` of `GetQueries`. -/
structure ScanState where
  qs : List Query
  next : Query
  merr : List FileError
  deriving DecidableEq, Repr

/-- One iteration of the loop of `GetQueries`, on line `line` of index `i`. -/
def GetQueries.step (u : RangeTables) (commentStyle : CommentSyntax) (st : ScanState)
    (i : Nat) (line : GoString) : Option ScanState :=
  let pfx := getPrefix line commentStyle
  if HasPrefix line pfx && pfx != [] then do
    let (qname, _, err) ← Parse u line commentStyle
    let merr := match err with
      | some e => st.merr ++ [{ Line := i, Err := e }]
      | none => st.merr
    let qs := if st.next.Name != [] && st.next.SQL != [] then st.qs ++ [st.next] else st.qs
    some { qs := qs, next := { Name := qname, SQL := [], Line := i }, merr := merr }
  else if st.next.Name != [] then
    some { st with next := { st.next with SQL := st.next.SQL ++ (' ' :: line) } }
  else
    some st

/-- The loop `for i, line := range strings.Split(src, "\n")` of `GetQueries`. -/
def GetQueries.loop (u : RangeTables) (commentStyle : CommentSyntax) :
    ScanState → Nat → List GoString → Option ScanState
  | st, _, [] => some st
  | st, i, line :: rest =>
    (GetQueries.step u commentStyle st i line).bind fun st1 =>
      GetQueries.loop u commentStyle st1 (i + 1) rest

/-- The function `GetQueries`: the records and the line errors. -/
def GetQueries (u : RangeTables) (src : GoString) (commentStyle : CommentSyntax) :
    Option (List Query × List FileError) :=
  (GetQueries.loop u commentStyle { qs := [], next := { Name := [], SQL := [], Line := 0 }, merr := [] }
    0 (Split src '\n')).map fun st => (st.qs, st.merr)

/-- The test `strings.HasPrefix(line, prefix) && prefix != ""` by which
`GetQueries` takes `line` for an annotation: an annotation candidate. -/
def isCandidate (line : GoString) (commentStyle : CommentSyntax) : Bool :=
  HasPrefix line (getPrefix line commentStyle) && getPrefix line commentStyle != []

/-- Follows the spec's words ("non-empty, letter/underscore first, then
letters/digits/underscores"): the valid identifiers. -/
def validIdentifier (u : RangeTables) : GoString → Bool
  | [] => false
  | c :: rest =>
    (IsLetter u c || c == '_') && rest.all fun d => IsLetter u d || IsDigit u d || d == '_'

/-- The text accumulated by `next.SQL += " " + line` over the lines `ls`. -/
def sqlOf (ls : List GoString) : GoString := (ls.map fun l => ' ' :: l).flatten

/-- Follows the spec's words ("on failure, append a `LineError{line: index,
error}`"): in line order, one entry for each annotation candidate on which
`Parse` returns an error, with the index of the line and that error. -/
def expectedErrors (u : RangeTables) (commentStyle : CommentSyntax) (lines : List GoString) :
    List FileError :=
  lines.enum.filterMap fun p =>
    if isCandidate p.2 commentStyle then
      match Parse u p.2 commentStyle with
      | some (_, _, some e) => some { Line := p.1, Err := e }
      | _ => none
    else none

/-- What holds of a record `r` appended to `qs`, among the lines `P` read so
far: its line is a candidate on which `Parse` returned its name and no error,
and its text is that of the lines up to the next candidate, at index `j`. -/
def RecordOK (u : RangeTables) (cs : CommentSyntax) (P : List GoString) (r : Query) : Prop :=
  ∃ line j line1, P[r.Line]? = some line ∧ isCandidate line cs = true ∧
    (∃ mode, Parse u line cs = some (r.Name, mode, none)) ∧
    r.Line < j ∧ P[j]? = some line1 ∧ isCandidate line1 cs = true ∧
    (∀ k l, r.Line < k → k < j → P[k]? = some l → isCandidate l cs = false) ∧
    r.SQL = sqlOf ((P.take j).drop (r.Line + 1))

/-- What holds of the pending record `next` once it has a name, among the
lines `P` read so far: its line is the last candidate of `P`, `Parse` returned
its name and no error there, and its text is that of the lines after it. -/
def PendingOK (u : RangeTables) (cs : CommentSyntax) (P : List GoString) (nx : Query) : Prop :=
  nx.Name ≠ [] →
    ∃ line, P[nx.Line]? = some line ∧ isCandidate line cs = true ∧
      (∃ mode, Parse u line cs = some (nx.Name, mode, none)) ∧
      (∀ k l, nx.Line < k → P[k]? = some l → isCandidate l cs = false) ∧
      nx.SQL = sqlOf (P.drop (nx.Line + 1))

/-- The invariant of the loop of `GetQueries` after the lines `P`. -/
def ScanInv (u : RangeTables) (cs : CommentSyntax) (P : List GoString) (st : ScanState) : Prop :=
  (∀ r ∈ st.qs, RecordOK u cs P r) ∧ PendingOK u cs P st.next ∧
    st.merr = expectedErrors u cs P

/-- A second invariant of the loop of `GetQueries` after the lines `P`: the
records of `qs` have a name and a text, stand in strictly ascending line order
and before the pending record, and the pending record lies within `P`. -/
def OrderInv (P : List GoString) (st : ScanState) : Prop :=
  st.qs.Pairwise (fun a b => a.Line < b.Line) ∧
    (∀ r ∈ st.qs, r.Line < st.next.Line ∧ r.Name ≠ [] ∧ r.SQL ≠ []) ∧
    st.next.Line ≤ P.length ∧ (st.next.Name ≠ [] → st.next.Line < P.length)

/-- A third invariant of the loop of `GetQueries` after the lines `P`: the
pending record is the one opened at the last candidate of `P`, and a candidate
of `P` that parsed to a name, is followed by a text line and has a later
candidate in `P` has its record in `qs`. -/
def FlushInv (u : RangeTables) (cs : CommentSyntax) (P : List GoString) (st : ScanState) : Prop :=
  (∀ i line n m e, P[i]? = some line → isCandidate line cs = true →
    (∀ k l, i < k → P[k]? = some l → isCandidate l cs = false) →
    Parse u line cs = some (n, m, e) →
    st.next.Line = i ∧ st.next.Name = n ∧ (n ≠ [] → st.next.SQL = sqlOf (P.drop (i + 1)))) ∧
  (∀ i line n m line1 j line2, P[i]? = some line → isCandidate line cs = true →
    Parse u line cs = some (n, m, none) → n ≠ [] →
    P[i + 1]? = some line1 → isCandidate line1 cs = false →
    i < j → P[j]? = some line2 → isCandidate line2 cs = true →
    ∃ r ∈ st.qs, r.Line = i)

/-- The record `q` with its `Line` increased by `k`. -/
def shiftQuery (k : Nat) (q : Query) : Query := { q with Line := q.Line + k }

/-- The line error `e` with its `Line` increased by `k`. -/
def shiftError (k : Nat) (e : FileError) : FileError := { e with Line := e.Line + k }

/-- The states `st` and `st1` of two runs of the loop of `GetQueries` over the
same lines, the second with every index `k` higher: same records and errors up
to the shift, same pending name and text, and the pending line shifted once a
statement is pending. -/
def ShiftRel (k : Nat) (st st1 : ScanState) : Prop :=
  st1.qs = st.qs.map (shiftQuery k) ∧ st1.merr = st.merr.map (shiftError k) ∧
    st1.next.Name = st.next.Name ∧ st1.next.SQL = st.next.SQL ∧
    (st.next.Name ≠ [] → st1.next.Line = st.next.Line + k)

/-! ## The annotation recogniser -/

theorem toList_dash : "--".toList = ['-', '-'] := rfl

theorem toList_slashStar : "/*".toList = ['/', '*'] := rfl

theorem toList_hash : "#".toList = ['#'] := rfl

/-- The early returns of `getPrefix` written as one nested conditional. -/
theorem getPrefix_eq (line : GoString) (cs : CommentSyntax) :
    getPrefix line cs =
      if HasPrefix line "--".toList then (if cs.Dash then "-- name:".toList else [])
      else if HasPrefix line "/*".toList then (if cs.SlashStar then "/* name:".toList else [])
      else if HasPrefix line "#".toList then (if cs.Hash then "# name:".toList else [])
      else [] := by
  rw [toList_dash, toList_slashStar, toList_hash]
  unfold getPrefix HasPrefix
  rcases line with _ | ⟨a, _ | ⟨b, l⟩⟩
  · simp [Id.run, List.isPrefixOf]
  · by_cases h : a = '#' <;> cases hH : cs.Hash <;> simp [Id.run, List.isPrefixOf, h, hH]
  · rcases cs with ⟨d, h, s⟩
    by_cases h1 : '-' = a
    · subst h1; cases d <;> cases h <;> cases s <;> simp [Id.run, List.isPrefixOf]
    by_cases h3 : '/' = a
    · subst h3; cases d <;> cases h <;> cases s <;> simp [Id.run, List.isPrefixOf]
    by_cases h5 : '#' = a
    · subst h5; cases d <;> cases h <;> cases s <;> simp [Id.run, List.isPrefixOf]
    simp [Id.run, List.isPrefixOf, h1, h3, h5]

/-- The three openers exclude one another. -/
theorem opener_exclusive (line : GoString) :
    (HasPrefix line "--".toList = true →
      HasPrefix line "/*".toList = false ∧ HasPrefix line "#".toList = false) ∧
    (HasPrefix line "/*".toList = true → HasPrefix line "#".toList = false) := by
  rw [toList_dash, toList_slashStar, toList_hash]
  unfold HasPrefix
  rcases line with _ | ⟨a, _ | ⟨b, l⟩⟩
  · simp [List.isPrefixOf]
  · simp [List.isPrefixOf]
  · constructor
    · intro h
      simp only [List.isPrefixOf, Bool.and_true, Bool.and_eq_true, beq_iff_eq] at h
      obtain ⟨h1, h2⟩ := h
      subst h1 h2
      simp [List.isPrefixOf]
    · intro h
      simp only [List.isPrefixOf, Bool.and_true, Bool.and_eq_true, beq_iff_eq] at h
      obtain ⟨h1, h2⟩ := h
      subst h1 h2
      simp [List.isPrefixOf]

/-- The value of `getPrefix` according to the opener the line starts with. -/
theorem getPrefix_of_opener (line : GoString) (cs : CommentSyntax) :
    (HasPrefix line "--".toList = true →
      getPrefix line cs = if cs.Dash then "-- name:".toList else []) ∧
    (HasPrefix line "/*".toList = true →
      getPrefix line cs = if cs.SlashStar then "/* name:".toList else []) ∧
    (HasPrefix line "#".toList = true →
      getPrefix line cs = if cs.Hash then "# name:".toList else []) ∧
    (HasPrefix line "--".toList = false → HasPrefix line "/*".toList = false →
      HasPrefix line "#".toList = false → getPrefix line cs = []) := by
  have hx := opener_exclusive line
  refine ⟨?_, ?_, ?_, ?_⟩
  · intro h
    rw [getPrefix_eq, if_pos h]
  · intro h
    have h1 : HasPrefix line "--".toList = false := by
      cases h1 : HasPrefix line "--".toList
      · rfl
      · rw [(hx.1 h1).1] at h; cases h
    rw [getPrefix_eq, h1, h]; simp
  · intro h
    have h1 : HasPrefix line "--".toList = false := by
      cases h1 : HasPrefix line "--".toList
      · rfl
      · rw [(hx.1 h1).2] at h; cases h
    have h2 : HasPrefix line "/*".toList = false := by
      cases h2 : HasPrefix line "/*".toList
      · rfl
      · rw [hx.2 h2] at h; cases h
    rw [getPrefix_eq, h1, h2, h]; simp
  · intro h1 h2 h3
    rw [getPrefix_eq, h1, h2, h3]; simp

/-- C10: `getPrefix` returns the marker of the opener the line starts with when
that opener's flag is set and the empty string otherwise; a line starting with
`--` is decided by `Dash` alone, one starting with `/*` by `SlashStar` alone,
one starting with `#` by `Hash` alone, and a line starting with no opener gets
the empty string whatever the flags. -/
theorem getPrefix_spec (line : GoString) (cs : CommentSyntax) :
    (HasPrefix line "--".toList = true →
      getPrefix line cs = if cs.Dash then "-- name:".toList else []) ∧
    (HasPrefix line "/*".toList = true →
      getPrefix line cs = if cs.SlashStar then "/* name:".toList else []) ∧
    (HasPrefix line "#".toList = true →
      getPrefix line cs = if cs.Hash then "# name:".toList else []) ∧
    (HasPrefix line "--".toList = false → HasPrefix line "/*".toList = false →
      HasPrefix line "#".toList = false → getPrefix line cs = []) := by
  obtain ⟨h1, h2, h3, h4⟩ := getPrefix_of_opener line cs
  exact ⟨h1, h2, h3, h4⟩

/-- Instance of `getPrefix_spec`: a well-formed `/*` annotation, with the block
dialect enabled and with it disabled. -/
theorem getPrefix_spec_witness :
    HasPrefix "/* name: a :one */".toList "/*".toList = true ∧
    getPrefix "/* name: a :one */".toList ⟨false, false, true⟩ = "/* name:".toList ∧
    getPrefix "/* name: a :one */".toList ⟨true, true, false⟩ = [] :=
  ⟨by decide,
   (getPrefix_spec "/* name: a :one */".toList ⟨false, false, true⟩).2.1 (by decide),
   (getPrefix_spec "/* name: a :one */".toList ⟨true, true, false⟩).2.1 (by decide)⟩

/-! ## The identifier validator -/

/-- Past the first character the loop of `validateQueryName` accepts exactly
the runs of letters, digits and underscores. -/
theorem validateQueryName_loop_pos (u : RangeTables) (name : GoString) (s : GoString) :
    ∀ i : Nat, 0 < i →
      ((validateQueryName.loop u name i s = none ↔
          s.all (fun d => IsLetter u d || IsDigit u d || d == '_') = true) ∧
        (validateQueryName.loop u name i s = none ∨
          validateQueryName.loop u name i s = some (Errorf "invalid query name %q" name))) := by
  induction s with
  | nil => intro i _; simp [validateQueryName.loop]
  | cons c rest ih =>
    intro i hi
    have hi0 : (i == 0) = false := by simpa using Nat.pos_iff_ne_zero.mp hi
    have hpos : 0 < i + c.utf8Size := by omega
    obtain ⟨h1, h2⟩ := ih (i + c.utf8Size) hpos
    unfold validateQueryName.loop
    generalize validateQueryName.loop u name (i + c.utf8Size) rest = r at h1 h2 ⊢
    cases hL : IsLetter u c <;> cases hD : IsDigit u c <;> cases hU : (c == '_') <;>
      simp_all

/-- The result of `validateQueryName`, case by case. -/
theorem validateQueryName_cases (u : RangeTables) (name : GoString) :
    (validateQueryName u name = none ↔ validIdentifier u name = true) ∧
    (validateQueryName u name = none ∨
      validateQueryName u name = some (Errorf "invalid query name: %q" name) ∨
      validateQueryName u name = some (Errorf "invalid query name %q" name)) := by
  cases name with
  | nil => simp [validateQueryName, validIdentifier]
  | cons c rest =>
    have hpos : 0 < 0 + c.utf8Size := by
      have := Char.utf8Size_pos c
      omega
    obtain ⟨h1, h2⟩ := validateQueryName_loop_pos u (c :: rest) rest (0 + c.utf8Size) hpos
    unfold validateQueryName validIdentifier
    simp only [List.length_cons, Nat.add_one_ne_zero, beq_iff_eq, if_false]
    unfold validateQueryName.loop
    generalize validateQueryName.loop u (c :: rest) (0 + c.utf8Size) rest = r at h1 h2 ⊢
    cases hL : IsLetter u c <;> cases hD : IsDigit u c <;> cases hU : (c == '_') <;>
      simp_all <;> tauto

/-- C3: `validateQueryName` returns `nil` exactly on the names that are
non-empty, start with a letter or an underscore and go on with letters, digits
and underscores; on every other name it returns one of its two
invalid-query-name errors. -/
theorem validateQueryName_spec (u : RangeTables) (name : GoString) :
    (validateQueryName u name = none ↔
      ∃ c rest, name = c :: rest ∧ (IsLetter u c = true ∨ c = '_') ∧
        ∀ d ∈ rest, IsLetter u d = true ∨ IsDigit u d = true ∨ d = '_') ∧
    (¬ (∃ c rest, name = c :: rest ∧ (IsLetter u c = true ∨ c = '_') ∧
        ∀ d ∈ rest, IsLetter u d = true ∨ IsDigit u d = true ∨ d = '_') ↔
      validateQueryName u name = some (Errorf "invalid query name: %q" name) ∨
      validateQueryName u name = some (Errorf "invalid query name %q" name)) := by
  have h := validateQueryName_cases u name
  have hv : validIdentifier u name = true ↔
      ∃ c rest, name = c :: rest ∧ (IsLetter u c = true ∨ c = '_') ∧
        ∀ d ∈ rest, IsLetter u d = true ∨ IsDigit u d = true ∨ d = '_' := by
    cases name with
    | nil => simp [validIdentifier]
    | cons c rest =>
      simp only [validIdentifier, Bool.and_eq_true, Bool.or_eq_true, beq_iff_eq,
        List.all_eq_true, List.cons.injEq]
      constructor
      · rintro ⟨h1, h2⟩
        exact ⟨c, rest, ⟨rfl, rfl⟩, h1, fun d hd => by
          rcases h2 d hd with (h | h) | h
          · exact Or.inl h
          · exact Or.inr (Or.inl h)
          · exact Or.inr (Or.inr h)⟩
      · rintro ⟨c1, rest1, ⟨rfl, rfl⟩, h1, h2⟩
        exact ⟨h1, fun d hd => by
          rcases h2 d hd with h | h | h
          · exact Or.inl (Or.inl h)
          · exact Or.inl (Or.inr h)
          · exact Or.inr h⟩
  rw [← hv, ← h.1]
  refine ⟨Iff.rfl, ?_⟩
  rcases h.2 with h0 | h1 | h2
  · simp [h0]
  · simp [h1]
  · simp [h2]

/-! ## Splitting and trimming -/

theorem Split_ne_nil (s : GoString) (sep : Char) : Split s sep ≠ [] := by
  cases s with
  | nil => simp [Split]
  | cons c cs =>
    unfold Split
    split
    · simp
    · split <;> simp

/-- A text without the separator is a single piece. -/
theorem Split_no_sep (s : GoString) (sep : Char) (h : ∀ c ∈ s, c ≠ sep) :
    Split s sep = [s] := by
  induction s with
  | nil => rfl
  | cons c cs ih =>
    have hc : c ≠ sep := h c (List.mem_cons_self _ _)
    have ih1 := ih fun d hd => h d (List.mem_cons_of_mem _ hd)
    simp [Split, hc, ih1]

/-- The first piece ends at the first separator. -/
theorem Split_append_sep (xs ys : GoString) (sep : Char) (h : ∀ c ∈ xs, c ≠ sep) :
    Split (xs ++ sep :: ys) sep = xs :: Split ys sep := by
  induction xs with
  | nil => simp [Split]
  | cons c cs ih =>
    have hc : c ≠ sep := h c (List.mem_cons_self _ _)
    have ih1 := ih fun d hd => h d (List.mem_cons_of_mem _ hd)
    simp [Split, hc, ih1]

/-- Text that neither starts nor ends with white space is left as it is. -/
theorem TrimSpace_eq_self (a : Char) (pre m : GoString) (ha : IsSpace a = false)
    (hm0 : m ≠ []) (hm : ∀ c ∈ m, IsSpace c = false) :
    TrimSpace (a :: (pre ++ m)) = a :: (pre ++ m) := by
  obtain ⟨m1, z, rfl⟩ : ∃ m1 z, m = m1 ++ [z] := by
    rcases List.eq_nil_or_concat m with h | ⟨m1, z, h⟩
    · exact absurd h hm0
    · exact ⟨m1, z, by simpa using h⟩
  have hz : IsSpace z = false := hm z (by simp)
  unfold TrimSpace
  rw [List.dropWhile_cons_of_neg (by simp [ha])]
  have : (a :: (pre ++ (m1 ++ [z]))).reverse = z :: (a :: (pre ++ m1)).reverse := by simp
  rw [this, List.dropWhile_cons_of_neg (by simp [hz])]
  simp

/-- A token without white space is left as it is. -/
theorem TrimSpace_token (m : GoString) (hm : ∀ c ∈ m, IsSpace c = false) : TrimSpace m = m := by
  cases m with
  | nil => rfl
  | cons a rest =>
    cases rest with
    | nil =>
      have ha : IsSpace a = false := hm a (by simp)
      simp [TrimSpace, List.dropWhile, ha]
    | cons b rest =>
      have := TrimSpace_eq_self a [] (b :: rest) (hm a (by simp)) (by simp)
        (fun c hc => hm c (by simp at hc ⊢; exact Or.inr hc))
      simpa using this

/-! ## The annotation parser -/

/-- The mode test of `Parse`: the five accepted query types. -/
theorem mode_test_iff (m : GoString) :
    (m == CmdOne || m == CmdMany || m == CmdExec || m == CmdExecResult || m == CmdExecRows) = true ↔
      m ∈ [CmdOne, CmdMany, CmdExec, CmdExecRows, CmdExecResult] := by
  simp only [Bool.or_eq_true, beq_iff_eq, List.mem_cons, List.mem_singleton, List.not_mem_nil,
    or_false]
  tauto

/-- On four parts `Parse` checks the mode, then the name. -/
theorem Parse_check_four (u : RangeTables) (line p0 p1 n m : GoString) :
    Parse.check u line [p0, p1, n, m] =
      if TrimSpace m ∈ [CmdOne, CmdMany, CmdExec, CmdExecRows, CmdExecResult] then
        match validateQueryName u n with
        | some err => some ([], [], some err)
        | none => some (n, TrimSpace m, none)
      else some ([], [], some (Errorf "invalid query type: %s" (TrimSpace m))) := by
  have hm := mode_test_iff (TrimSpace m)
  have e : Parse.check u line [p0, p1, n, m] =
      if (!(TrimSpace m == CmdOne || TrimSpace m == CmdMany || TrimSpace m == CmdExec ||
          TrimSpace m == CmdExecResult || TrimSpace m == CmdExecRows)) = true then
        some ([], [], some (Errorf "invalid query type: %s" (TrimSpace m)))
      else
        match validateQueryName u n with
        | some err => some ([], [], some err)
        | none => some (n, TrimSpace m, none) := by
    rfl
  rw [e]
  generalize (TrimSpace m == CmdOne || TrimSpace m == CmdMany || TrimSpace m == CmdExec ||
    TrimSpace m == CmdExecResult || TrimSpace m == CmdExecRows) = b at hm
  cases b
  · have h : TrimSpace m ∉ [CmdOne, CmdMany, CmdExec, CmdExecRows, CmdExecResult] :=
      fun h => by simpa using hm.2 h
    rw [if_neg h]; rfl
  · rw [if_pos (hm.1 rfl)]; rfl

/-- On two parts `Parse` reports a missing query type. -/
theorem Parse_check_two (u : RangeTables) (line p0 p1 : GoString) :
    Parse.check u line [p0, p1] = some ([], [], some (Errorf
      "missing query type [':one', ':many', ':exec', ':execrows', ':execresult']: %s" line)) := by
  simp [Parse.check]

/-- On any other number of parts `Parse` reports an invalid query comment. -/
theorem Parse_check_other (u : RangeTables) (line : GoString) (part : List GoString)
    (h2 : part.length ≠ 2) (h4 : part.length ≠ 4) :
    Parse.check u line part = some ([], [], some (Errorf "invalid query comment: %s" line)) := by
  simp [Parse.check, h2, h4]

/-- The body of `Parse` on a line that does not start with `/*`. -/
theorem Parse_body_plain (u : RangeTables) (line : GoString)
    (hs : HasPrefix line "/*".toList = false) :
    Parse.body u line = Parse.check u line (Split (TrimSpace line) ' ') := by
  unfold Parse.body
  rw [hs]
  rfl

/-- The body of `Parse` on a line that starts with `/*`: the last part is
dropped. -/
theorem Parse_body_star (u : RangeTables) (line : GoString)
    (hs : HasPrefix line "/*".toList = true) :
    Parse.body u line = Parse.check u line (Split (TrimSpace line) ' ').dropLast := by
  have hne := Split_ne_nil (TrimSpace line) ' '
  have hlen : 0 < (Split (TrimSpace line) ' ').length := List.length_pos.mpr hne
  have h1 : sliceTo (Split (TrimSpace line) ' ') (((Split (TrimSpace line) ' ').length : Int) - 1)
      = some (Split (TrimSpace line) ' ').dropLast := by
    unfold sliceTo
    rw [if_pos (by omega)]
    congr 1
    rw [List.dropLast_eq_take]
    congr 1
    omega
  unfold Parse.body
  rw [hs]
  simp only [if_true, h1]
  rfl

/-- The function `Parse` on a text of one line. -/
theorem Parse_line (u : RangeTables) (line : GoString) (cs : CommentSyntax)
    (hnl : ∀ c ∈ line, c ≠ '\n') :
    Parse u line cs = if isCandidate line cs = true then Parse.body u line else some ([], [], none) := by
  unfold Parse
  rw [Split_no_sep line _ hnl]
  unfold Parse.loop isCandidate
  cases h1 : getPrefix line cs == [] <;> cases h2 : HasPrefix line (getPrefix line cs) <;>
    simp [Parse.loop, bne, h1, h2]

/-- A valid identifier contains neither a space nor a line feed. -/
theorem validIdentifier_no_sep (u : RangeTables) (n : GoString) (h : validIdentifier u n = true) :
    ∀ c ∈ n, c ≠ ' ' ∧ c ≠ '\n' := by
  have key : ∀ c : Char, (IsLetter u c || IsDigit u c || c == '_') = true → c ≠ ' ' ∧ c ≠ '\n' := by
    intro c hc
    constructor
    · rintro rfl
      have : (IsLetter u ' ' || IsDigit u ' ' || ' ' == '_') = false := rfl
      rw [this] at hc; cases hc
    · rintro rfl
      have : (IsLetter u '\n' || IsDigit u '\n' || '\n' == '_') = false := rfl
      rw [this] at hc; cases hc
  cases n with
  | nil => intro c hc; cases hc
  | cons a rest =>
    simp only [validIdentifier, Bool.and_eq_true, List.all_eq_true] at h
    intro c hc
    rcases List.mem_cons.mp hc with rfl | hc
    · apply key
      rcases Bool.or_eq_true _ _ |>.mp h.1 with h1 | h1
      · simp [h1]
      · simp [h1]
    · exact key c (h.2 c hc)

/-- A token without white space contains neither a space nor a line feed. -/
theorem token_no_sep (m : GoString) (h : ∀ c ∈ m, IsSpace c = false) :
    ∀ c ∈ m, c ≠ ' ' ∧ c ≠ '\n' := by
  intro c hc
  constructor
  · rintro rfl
    have := h _ hc
    revert this; decide
  · rintro rfl
    have := h _ hc
    revert this; decide

/-- The accepted query types are tokens without white space. -/
theorem mode_token (m : GoString) (h : m ∈ [CmdOne, CmdMany, CmdExec, CmdExecRows, CmdExecResult]) :
    m ≠ [] ∧ ∀ c ∈ m, IsSpace c = false := by
  simp only [List.mem_cons, List.mem_singleton, List.not_mem_nil, or_false] at h
  rcases h with rfl | rfl | rfl | rfl | rfl <;> decide

/-- The function `Parse` on a `--` line made of a name and a mode token. -/
theorem Parse_dash_line (u : RangeTables) (n m : GoString) (cs : CommentSyntax)
    (hn : ∀ c ∈ n, c ≠ ' ' ∧ c ≠ '\n') (hm0 : m ≠ []) (hm : ∀ c ∈ m, IsSpace c = false)
    (hd : cs.Dash = true) :
    Parse u ("-- name: ".toList ++ n ++ " ".toList ++ m) cs =
      Parse.check u ("-- name: ".toList ++ n ++ " ".toList ++ m)
        ["--".toList, "name:".toList, n, m] := by
  have hm1 := token_no_sep m hm
  have hl : "-- name: ".toList ++ n ++ " ".toList ++ m =
      '-' :: '-' :: ' ' :: 'n' :: 'a' :: 'm' :: 'e' :: ':' :: ' ' :: (n ++ ' ' :: m) := by simp
  have hl2 : "-- name: ".toList ++ n ++ " ".toList ++ m =
      '-' :: (('-' :: ' ' :: 'n' :: 'a' :: 'm' :: 'e' :: ':' :: ' ' :: (n ++ [' '])) ++ m) := by simp
  have htrim : TrimSpace ("-- name: ".toList ++ n ++ " ".toList ++ m) =
      "-- name: ".toList ++ n ++ " ".toList ++ m := by
    rw [hl2]; exact TrimSpace_eq_self _ _ _ (by decide) hm0 hm
  have hnl : ∀ c ∈ "-- name: ".toList ++ n ++ " ".toList ++ m, c ≠ '\n' := by
    intro c hc
    rw [hl] at hc
    simp only [List.mem_cons, List.mem_append] at hc
    rcases hc with rfl | rfl | rfl | rfl | rfl | rfl | rfl | rfl | rfl | hc | rfl | hc <;>
      first | decide | exact (hn c hc).2 | exact (hm1 c hc).2
  have hsplit : Split ("-- name: ".toList ++ n ++ " ".toList ++ m) ' ' =
      ["--".toList, "name:".toList, n, m] := by
    have e : "-- name: ".toList ++ n ++ " ".toList ++ m =
        "--".toList ++ ' ' :: ("name:".toList ++ ' ' :: (n ++ ' ' :: m)) := by simp
    rw [e, Split_append_sep _ _ _ (by decide), Split_append_sep _ _ _ (by decide),
      Split_append_sep _ _ _ (fun c hc => (hn c hc).1),
      Split_no_sep _ _ (fun c hc => (hm1 c hc).1)]
  have hpre : HasPrefix ("-- name: ".toList ++ n ++ " ".toList ++ m) "--".toList = true := by
    rw [hl]; rfl
  have hstar : HasPrefix ("-- name: ".toList ++ n ++ " ".toList ++ m) "/*".toList = false := by
    rw [hl]; rfl
  have hcand : isCandidate ("-- name: ".toList ++ n ++ " ".toList ++ m) cs = true := by
    unfold isCandidate
    rw [(getPrefix_of_opener _ cs).1 hpre, hd, hl]
    rfl
  rw [Parse_line u _ cs hnl, if_pos hcand, Parse_body_plain u _ hstar, htrim, hsplit]

/-- The function `Parse` on a `#` line made of a name and a mode token. -/
theorem Parse_hash_line (u : RangeTables) (n m : GoString) (cs : CommentSyntax)
    (hn : ∀ c ∈ n, c ≠ ' ' ∧ c ≠ '\n') (hm0 : m ≠ []) (hm : ∀ c ∈ m, IsSpace c = false)
    (hd : cs.Hash = true) :
    Parse u ("# name: ".toList ++ n ++ " ".toList ++ m) cs =
      Parse.check u ("# name: ".toList ++ n ++ " ".toList ++ m)
        ["#".toList, "name:".toList, n, m] := by
  have hm1 := token_no_sep m hm
  have hl : "# name: ".toList ++ n ++ " ".toList ++ m =
      '#' :: ' ' :: 'n' :: 'a' :: 'm' :: 'e' :: ':' :: ' ' :: (n ++ ' ' :: m) := by simp
  have hl2 : "# name: ".toList ++ n ++ " ".toList ++ m =
      '#' :: ((' ' :: 'n' :: 'a' :: 'm' :: 'e' :: ':' :: ' ' :: (n ++ [' '])) ++ m) := by simp
  have htrim : TrimSpace ("# name: ".toList ++ n ++ " ".toList ++ m) =
      "# name: ".toList ++ n ++ " ".toList ++ m := by
    rw [hl2]; exact TrimSpace_eq_self _ _ _ (by decide) hm0 hm
  have hnl : ∀ c ∈ "# name: ".toList ++ n ++ " ".toList ++ m, c ≠ '\n' := by
    intro c hc
    rw [hl] at hc
    simp only [List.mem_cons, List.mem_append] at hc
    rcases hc with rfl | rfl | rfl | rfl | rfl | rfl | rfl | rfl | hc | rfl | hc <;>
      first | decide | exact (hn c hc).2 | exact (hm1 c hc).2
  have hsplit : Split ("# name: ".toList ++ n ++ " ".toList ++ m) ' ' =
      ["#".toList, "name:".toList, n, m] := by
    have e : "# name: ".toList ++ n ++ " ".toList ++ m =
        "#".toList ++ ' ' :: ("name:".toList ++ ' ' :: (n ++ ' ' :: m)) := by simp
    rw [e, Split_append_sep _ _ _ (by decide), Split_append_sep _ _ _ (by decide),
      Split_append_sep _ _ _ (fun c hc => (hn c hc).1),
      Split_no_sep _ _ (fun c hc => (hm1 c hc).1)]
  have hpre : HasPrefix ("# name: ".toList ++ n ++ " ".toList ++ m) "#".toList = true := by
    rw [hl]; rfl
  have hstar : HasPrefix ("# name: ".toList ++ n ++ " ".toList ++ m) "/*".toList = false := by
    rw [hl]; rfl
  have hcand : isCandidate ("# name: ".toList ++ n ++ " ".toList ++ m) cs = true := by
    unfold isCandidate
    rw [(getPrefix_of_opener _ cs).2.2.1 hpre, hd, hl]
    rfl
  rw [Parse_line u _ cs hnl, if_pos hcand, Parse_body_plain u _ hstar, htrim, hsplit]

/-- The function `Parse` on a `/*` line made of a name, a mode token and the
closing marker. -/
theorem Parse_star_line (u : RangeTables) (n m : GoString) (cs : CommentSyntax)
    (hn : ∀ c ∈ n, c ≠ ' ' ∧ c ≠ '\n') (hm : ∀ c ∈ m, IsSpace c = false)
    (hd : cs.SlashStar = true) :
    Parse u ("/* name: ".toList ++ n ++ " ".toList ++ m ++ " */".toList) cs =
      Parse.check u ("/* name: ".toList ++ n ++ " ".toList ++ m ++ " */".toList)
        ["/*".toList, "name:".toList, n, m] := by
  have hm1 := token_no_sep m hm
  have hl : "/* name: ".toList ++ n ++ " ".toList ++ m ++ " */".toList =
      '/' :: '*' :: ' ' :: 'n' :: 'a' :: 'm' :: 'e' :: ':' :: ' ' ::
        (n ++ ' ' :: (m ++ [' ', '*', '/'])) := by simp
  have hl2 : "/* name: ".toList ++ n ++ " ".toList ++ m ++ " */".toList =
      '/' :: (('*' :: ' ' :: 'n' :: 'a' :: 'm' :: 'e' :: ':' :: ' ' ::
        (n ++ ' ' :: (m ++ [' ']))) ++ ['*', '/']) := by simp
  have htrim : TrimSpace ("/* name: ".toList ++ n ++ " ".toList ++ m ++ " */".toList) =
      "/* name: ".toList ++ n ++ " ".toList ++ m ++ " */".toList := by
    rw [hl2]; exact TrimSpace_eq_self _ _ _ (by decide) (by decide) (by decide)
  have hnl : ∀ c ∈ "/* name: ".toList ++ n ++ " ".toList ++ m ++ " */".toList, c ≠ '\n' := by
    intro c hc
    rw [hl] at hc
    simp only [List.mem_cons, List.mem_append, List.not_mem_nil, or_false] at hc
    rcases hc with rfl | rfl | rfl | rfl | rfl | rfl | rfl | rfl | rfl | hc | rfl | hc |
      rfl | rfl | rfl <;>
      first | decide | exact (hn c hc).2 | exact (hm1 c hc).2
  have hsplit : Split ("/* name: ".toList ++ n ++ " ".toList ++ m ++ " */".toList) ' ' =
      ["/*".toList, "name:".toList, n, m, "*/".toList] := by
    have e : "/* name: ".toList ++ n ++ " ".toList ++ m ++ " */".toList =
        "/*".toList ++ ' ' :: ("name:".toList ++ ' ' :: (n ++ ' ' :: (m ++ ' ' :: "*/".toList))) := by
      simp
    rw [e, Split_append_sep _ _ _ (by decide), Split_append_sep _ _ _ (by decide),
      Split_append_sep _ _ _ (fun c hc => (hn c hc).1),
      Split_append_sep _ _ _ (fun c hc => (hm1 c hc).1),
      Split_no_sep _ _ (by decide)]
  have hstar : HasPrefix ("/* name: ".toList ++ n ++ " ".toList ++ m ++ " */".toList)
      "/*".toList = true := by
    rw [hl]; rfl
  have hcand : isCandidate ("/* name: ".toList ++ n ++ " ".toList ++ m ++ " */".toList) cs
      = true := by
    unfold isCandidate
    rw [(getPrefix_of_opener _ cs).2.1 hstar, hd, hl]
    rfl
  rw [Parse_line u _ cs hnl, if_pos hcand, Parse_body_star u _ hstar, htrim, hsplit]
  rfl

/-- The names accepted by `validateQueryName` are the valid identifiers. -/
theorem validateQueryName_none_iff (u : RangeTables) (n : GoString) :
    validateQueryName u n = none ↔ validIdentifier u n = true :=
  (validateQueryName_cases u n).1

/-- C4: a well-formed annotation is parsed back to its name and mode in each
dialect: for a name accepted by `validateQueryName` and one of the five query
types, the `--` line (with `Dash`), the `#` line (with `Hash`) and the `/*`
line with its closing marker (with `SlashStar`) each give `(n, m, nil)`. -/
theorem Parse_roundtrip (u : RangeTables) (n m : GoString) (cs : CommentSyntax)
    (hn : validateQueryName u n = none)
    (hm : m ∈ [CmdOne, CmdMany, CmdExec, CmdExecRows, CmdExecResult]) :
    (cs.Dash = true →
      Parse u ("-- name: ".toList ++ n ++ " ".toList ++ m) cs = some (n, m, none)) ∧
    (cs.Hash = true →
      Parse u ("# name: ".toList ++ n ++ " ".toList ++ m) cs = some (n, m, none)) ∧
    (cs.SlashStar = true →
      Parse u ("/* name: ".toList ++ n ++ " ".toList ++ m ++ " */".toList) cs =
        some (n, m, none)) := by
  have hv := validIdentifier_no_sep u n ((validateQueryName_none_iff u n).1 hn)
  obtain ⟨hm0, hws⟩ := mode_token m hm
  have ht : TrimSpace m = m := TrimSpace_token m hws
  refine ⟨fun hd => ?_, fun hd => ?_, fun hd => ?_⟩
  · rw [Parse_dash_line u n m cs hv hm0 hws hd, Parse_check_four, ht, if_pos hm, hn]
  · rw [Parse_hash_line u n m cs hv hm0 hws hd, Parse_check_four, ht, if_pos hm, hn]
  · rw [Parse_star_line u n m cs hv hws hd, Parse_check_four, ht, if_pos hm, hn]

/-- Instance of `Parse_roundtrip`: the name `get_user` with the mode `:many`,
all dialects enabled. -/
theorem Parse_roundtrip_witness :
    Parse latin1Tables "-- name: get_user :many".toList ⟨true, true, true⟩ =
      some ("get_user".toList, ":many".toList, none) ∧
    Parse latin1Tables "# name: get_user :many".toList ⟨true, true, true⟩ =
      some ("get_user".toList, ":many".toList, none) ∧
    Parse latin1Tables "/* name: get_user :many */".toList ⟨true, true, true⟩ =
      some ("get_user".toList, ":many".toList, none) :=
  have h := Parse_roundtrip latin1Tables "get_user".toList ":many".toList ⟨true, true, true⟩
    (by decide) (by decide)
  ⟨h.1 rfl, h.2.1 rfl, h.2.2 rfl⟩

/-- C5: on a `--` annotation with a valid name and a non-empty mode token
without white space, `Parse` returns `(n, m, nil)` exactly when the token is one
of `:one`, `:many`, `:exec`, `:execrows`, `:execresult`, and the
invalid-query-type error for every other token; the token `:bogus` gets that
error. -/
theorem Parse_mode_switch (u : RangeTables) (n m : GoString) (cs : CommentSyntax)
    (hn : validateQueryName u n = none) (hm0 : m ≠ []) (hws : ∀ c ∈ m, IsSpace c = false)
    (hd : cs.Dash = true) :
    (Parse u ("-- name: ".toList ++ n ++ " ".toList ++ m) cs = some (n, m, none) ↔
      m ∈ [CmdOne, CmdMany, CmdExec, CmdExecRows, CmdExecResult]) ∧
    (m ∉ [CmdOne, CmdMany, CmdExec, CmdExecRows, CmdExecResult] →
      Parse u ("-- name: ".toList ++ n ++ " ".toList ++ m) cs =
        some ([], [], some (Errorf "invalid query type: %s" m))) ∧
    Parse u ("-- name: ".toList ++ n ++ " ".toList ++ ":bogus".toList) cs =
      some ([], [], some (Errorf "invalid query type: %s" ":bogus".toList)) := by
  have hv := validIdentifier_no_sep u n ((validateQueryName_none_iff u n).1 hn)
  have ht : TrimSpace m = m := TrimSpace_token m hws
  have hbad : m ∉ [CmdOne, CmdMany, CmdExec, CmdExecRows, CmdExecResult] →
      Parse u ("-- name: ".toList ++ n ++ " ".toList ++ m) cs =
        some ([], [], some (Errorf "invalid query type: %s" m)) := by
    intro h
    rw [Parse_dash_line u n m cs hv hm0 hws hd, Parse_check_four, ht, if_neg h]
  refine ⟨⟨fun h => ?_, fun h => ?_⟩, hbad, ?_⟩
  · by_contra hne
    rw [hbad hne] at h
    simp at h
  · rw [Parse_dash_line u n m cs hv hm0 hws hd, Parse_check_four, ht, if_pos h, hn]
  · rw [Parse_dash_line u n _ cs hv (by decide) (by decide) hd, Parse_check_four]
    rfl

/-- Instance of `Parse_mode_switch`: the name `get_user` with the token `:rows`. -/
theorem Parse_mode_switch_witness :
    Parse latin1Tables "-- name: get_user :rows".toList ⟨true, false, false⟩ =
      some ([], [], some (Errorf "invalid query type: %s" ":rows".toList)) :=
  (Parse_mode_switch latin1Tables "get_user".toList ":rows".toList ⟨true, false, false⟩
    (by decide) (by decide) (by decide) rfl).2.1 (by decide)

/-- C6, as the spec states it, fails: with the valid name `foo` the mode tokens
`:exec-rows` and `:exec-result` are rejected with the invalid-query-type
error. -/
theorem Parse_hyphenated_mode_rejected :
    validateQueryName latin1Tables "foo".toList = none ∧
    Parse latin1Tables "-- name: foo :exec-rows".toList ⟨true, false, false⟩ =
      some ([], [], some (Errorf "invalid query type: %s" ":exec-rows".toList)) ∧
    Parse latin1Tables "-- name: foo :exec-result".toList ⟨true, false, false⟩ =
      some ([], [], some (Errorf "invalid query type: %s" ":exec-result".toList)) := by
  decide

/-- C6, amended: the modes `Parse` accepts are `:one`, `:many`, `:exec`,
`:execrows` and `:execresult`: on a `--` annotation with a valid name each of
them gives `(n, m, nil)`, and every other non-empty token without white space
gives an error. -/
theorem Parse_accepted_modes (u : RangeTables) (n : GoString) (cs : CommentSyntax)
    (hn : validateQueryName u n = none) (hd : cs.Dash = true) :
    (∀ m ∈ [":one".toList, ":many".toList, ":exec".toList, ":execrows".toList,
        ":execresult".toList],
      Parse u ("-- name: ".toList ++ n ++ " ".toList ++ m) cs = some (n, m, none)) ∧
    (∀ m : GoString, m ≠ [] → (∀ c ∈ m, IsSpace c = false) →
      m ∉ [":one".toList, ":many".toList, ":exec".toList, ":execrows".toList,
        ":execresult".toList] →
      ∃ e, Parse u ("-- name: ".toList ++ n ++ " ".toList ++ m) cs = some ([], [], some e)) := by
  have hv := validIdentifier_no_sep u n ((validateQueryName_none_iff u n).1 hn)
  constructor
  · intro m hm
    have hm1 : m ∈ [CmdOne, CmdMany, CmdExec, CmdExecRows, CmdExecResult] := hm
    obtain ⟨hm0, hws⟩ := mode_token m hm1
    rw [Parse_dash_line u n m cs hv hm0 hws hd, Parse_check_four, TrimSpace_token m hws,
      if_pos hm1, hn]
  · intro m hm0 hws hm
    have hm1 : m ∉ [CmdOne, CmdMany, CmdExec, CmdExecRows, CmdExecResult] := hm
    refine ⟨Errorf "invalid query type: %s" m, ?_⟩
    rw [Parse_dash_line u n m cs hv hm0 hws hd, Parse_check_four, TrimSpace_token m hws,
      if_neg hm1]

/-- Instance of `Parse_accepted_modes`: the name `foo`, accepted with
`:execrows`, rejected with `:exec-rows`. -/
theorem Parse_accepted_modes_witness :
    Parse latin1Tables "-- name: foo :execrows".toList ⟨true, false, false⟩ =
      some ("foo".toList, ":execrows".toList, none) ∧
    ∃ e, Parse latin1Tables "-- name: foo :exec-rows".toList ⟨true, false, false⟩ =
      some ([], [], some e) :=
  have h := Parse_accepted_modes latin1Tables "foo".toList ⟨true, false, false⟩ (by decide) rfl
  ⟨h.1 ":execrows".toList (by decide),
   h.2 ":exec-rows".toList (by decide) (by decide) (by decide)⟩

/-- C7: an annotation with a name and no mode has three parts, so `Parse`
reports an invalid query comment, the missing-query-type branch being taken on
two parts only; `GetQueries` records that error at line 0. -/
theorem Parse_name_without_mode :
    Parse latin1Tables "-- name: get_user".toList ⟨true, true, true⟩ =
      some ([], [], some (Errorf "invalid query comment: %s" "-- name: get_user".toList)) ∧
    GetQueries latin1Tables "-- name: get_user\nSELECT 1;\n".toList ⟨true, true, true⟩ =
      some ([], [⟨0, Errorf "invalid query comment: %s" "-- name: get_user".toList⟩]) ∧
    Parse latin1Tables "-- name:".toList ⟨true, true, true⟩ =
      some ([], [], some (Errorf
        "missing query type [':one', ':many', ':exec', ':execrows', ':execresult']: %s"
        "-- name:".toList)) := by
  decide

/-! ## Every call of `Parse` returns -/

/-- The checks of `Parse` return for every list of parts, and a non-empty
name comes with no error. -/
theorem Parse_check_total (u : RangeTables) (line : GoString) (part : List GoString) :
    ∃ n m e, Parse.check u line part = some (n, m, e) ∧ (n ≠ [] → e = none) := by
  by_cases h2 : part.length = 2
  · obtain ⟨p0, p1, rfl⟩ := List.length_eq_two.mp h2
    exact ⟨[], [], _, Parse_check_two u line p0 p1, fun h => absurd rfl h⟩
  by_cases h4 : part.length = 4
  · obtain ⟨p0, p1, n, m, rfl⟩ : ∃ p0 p1 n m, part = [p0, p1, n, m] := by
      rcases part with _ | ⟨a, _ | ⟨b, _ | ⟨c, _ | ⟨d, _ | ⟨e, l⟩⟩⟩⟩⟩ <;> simp at h4
      exact ⟨a, b, c, d, rfl⟩
    rw [Parse_check_four]
    split_ifs with hm
    · cases hv : validateQueryName u n with
      | none => exact ⟨n, TrimSpace m, none, rfl, fun _ => rfl⟩
      | some err => exact ⟨[], [], some err, rfl, fun h => absurd rfl h⟩
    · exact ⟨[], [], _, rfl, fun h => absurd rfl h⟩
  · exact ⟨[], [], _, Parse_check_other u line part h2 h4, fun h => absurd rfl h⟩

/-- The body of the loop of `Parse` returns for every line. -/
theorem Parse_body_total (u : RangeTables) (line : GoString) :
    ∃ n m e, Parse.body u line = some (n, m, e) ∧ (n ≠ [] → e = none) := by
  cases hs : HasPrefix line "/*".toList
  · rw [Parse_body_plain u line hs]; exact Parse_check_total u line _
  · rw [Parse_body_star u line hs]; exact Parse_check_total u line _

/-- The loop of `Parse` returns for every list of lines. -/
theorem Parse_loop_total (u : RangeTables) (cs : CommentSyntax) (lines : List GoString) :
    ∃ n m e, Parse.loop u cs lines = some (n, m, e) ∧ (n ≠ [] → e = none) := by
  induction lines with
  | nil => exact ⟨[], [], none, rfl, fun _ => rfl⟩
  | cons line rest ih =>
    unfold Parse.loop
    dsimp only
    split_ifs
    · exact ih
    · exact ih
    · exact Parse_body_total u line

/-- The function `Parse` returns for every text, and a non-empty name comes
with no error. -/
theorem Parse_total (u : RangeTables) (t : GoString) (cs : CommentSyntax) :
    ∃ n m e, Parse u t cs = some (n, m, e) ∧ (n ≠ [] → e = none) :=
  Parse_loop_total u cs _

/-! ## One iteration of the block scanner -/

/-- An iteration on a line that is not an annotation candidate. -/
theorem step_plain (u : RangeTables) (cs : CommentSyntax) (st : ScanState) (i : Nat)
    (line : GoString) (h : isCandidate line cs = false) :
    GetQueries.step u cs st i line =
      some (if st.next.Name ≠ [] then
        { st with next := { st.next with SQL := st.next.SQL ++ ' ' :: line } } else st) := by
  unfold isCandidate at h
  unfold GetQueries.step
  simp only [h]
  by_cases hn : st.next.Name = [] <;> simp [hn]

/-- An iteration on an annotation candidate. -/
theorem step_candidate (u : RangeTables) (cs : CommentSyntax) (st : ScanState) (i : Nat)
    (line n m : GoString) (e : Option GoError) (h : isCandidate line cs = true) :
    Parse u line cs = some (n, m, e) →
    GetQueries.step u cs st i line =
      some { qs := if st.next.Name ≠ [] ∧ st.next.SQL ≠ [] then st.qs ++ [st.next] else st.qs,
             next := { Name := n, SQL := [], Line := i },
             merr := match e with
               | some err => st.merr ++ [{ Line := i, Err := err }]
               | none => st.merr } := by
  intro hp
  unfold isCandidate at h
  unfold GetQueries.step
  simp only [h, hp]
  by_cases hn : st.next.Name = [] <;> by_cases hq : st.next.SQL = [] <;> cases e <;> simp [hn, hq]

/-! ## The invariant of the block scanner -/

theorem sqlOf_append (xs ys : List GoString) : sqlOf (xs ++ ys) = sqlOf xs ++ sqlOf ys := by
  simp [sqlOf]

theorem sqlOf_singleton (x : GoString) : sqlOf [x] = ' ' :: x := by
  simp [sqlOf]

theorem expectedErrors_append_singleton (u : RangeTables) (cs : CommentSyntax)
    (P : List GoString) (x : GoString) :
    expectedErrors u cs (P ++ [x]) = expectedErrors u cs P ++
      (if isCandidate x cs then
        match Parse u x cs with
        | some (_, _, some e) => [{ Line := P.length, Err := e }]
        | _ => []
      else []) := by
  unfold expectedErrors
  rw [List.enum_append, List.filterMap_append]
  congr 1
  simp only [List.enumFrom_singleton, List.filterMap_cons, List.filterMap_nil]
  cases hc : isCandidate x cs
  · simp
  · simp only [if_true]
    rcases hP : Parse u x cs with _ | ⟨n, m, _ | e⟩ <;> simp

/-- A record that is in order among the lines read so far stays so when more
lines are read. -/
theorem RecordOK_append (u : RangeTables) (cs : CommentSyntax) (P Q : List GoString) (r : Query)
    (h : RecordOK u cs P r) : RecordOK u cs (P ++ Q) r := by
  obtain ⟨line, j, line1, h1, h2, h3, h4, h5, h6, h7, h8⟩ := h
  have hj : j < P.length := (List.getElem?_eq_some.mp h5).1
  have hr : r.Line < P.length := (List.getElem?_eq_some.mp h1).1
  refine ⟨line, j, line1, ?_, h2, h3, h4, ?_, h6, ?_, ?_⟩
  · rw [List.getElem?_append_left hr]; exact h1
  · rw [List.getElem?_append_left hj]; exact h5
  · intro k l hk1 hk2 hk3
    rw [List.getElem?_append_left (by omega)] at hk3
    exact h7 k l hk1 hk2 hk3
  · rw [List.take_append_of_le_length (by omega)]; exact h8

/-- One iteration keeps the invariant, and returns. -/
theorem step_inv (u : RangeTables) (cs : CommentSyntax) (P : List GoString) (st : ScanState)
    (x : GoString) (h : ScanInv u cs P st) :
    ∃ st1, GetQueries.step u cs st P.length x = some st1 ∧ ScanInv u cs (P ++ [x]) st1 := by
  obtain ⟨hqs, hnext, herr⟩ := h
  cases hc : isCandidate x cs
  · -- a text line
    refine ⟨_, step_plain u cs st P.length x hc, ?_, ?_, ?_⟩
    · intro r hr
      apply RecordOK_append
      apply hqs
      split_ifs at hr <;> exact hr
    · by_cases hn : st.next.Name = []
      · rw [if_neg (by simpa using hn)]
        intro h; exact absurd hn h
      · rw [if_pos hn]
        intro _
        obtain ⟨line, h1, h2, h3, h4, h5⟩ := hnext hn
        have hl : st.next.Line < P.length := (List.getElem?_eq_some.mp h1).1
        refine ⟨line, ?_, h2, h3, ?_, ?_⟩
        · show (P ++ [x])[st.next.Line]? = some line
          rw [List.getElem?_append_left hl]; exact h1
        · intro k l hk1 hk2
          change st.next.Line < k at hk1
          by_cases hk : k < P.length
          · rw [List.getElem?_append_left hk] at hk2
            exact h4 k l hk1 hk2
          · have hk3 : k = P.length := by
              have := (List.getElem?_eq_some.mp hk2).1
              simp at this; omega
            subst hk3
            rw [List.getElem?_concat_length] at hk2
            cases hk2; exact hc
        · show st.next.SQL ++ ' ' :: x = sqlOf ((P ++ [x]).drop (st.next.Line + 1))
          rw [List.drop_append_of_le_length (by omega), sqlOf_append, sqlOf_singleton, h5]
    · have hm : (if st.next.Name ≠ [] then
          { st with next := { st.next with SQL := st.next.SQL ++ ' ' :: x } } else st).merr
          = st.merr := by
        split_ifs <;> rfl
      rw [hm, expectedErrors_append_singleton, hc, herr]
      simp
  · -- an annotation candidate
    obtain ⟨n, m, e, hP, hne⟩ := Parse_total u x cs
    refine ⟨_, step_candidate u cs st P.length x n m e hc hP, ?_, ?_, ?_⟩
    · intro r hr
      have hold : r ∈ st.qs → RecordOK u cs (P ++ [x]) r :=
        fun h => RecordOK_append u cs P [x] r (hqs r h)
      dsimp only at hr
      split_ifs at hr with hflush
      · rcases List.mem_append.mp hr with hr | hr
        · exact hold hr
        · rw [List.mem_singleton] at hr
          subst hr
          obtain ⟨line, h1, h2, h3, h4, h5⟩ := hnext hflush.1
          have hl : st.next.Line < P.length := (List.getElem?_eq_some.mp h1).1
          refine ⟨line, P.length, x, ?_, h2, h3, hl, List.getElem?_concat_length P x, hc, ?_, ?_⟩
          · rw [List.getElem?_append_left hl]; exact h1
          · intro k l hk1 hk2 hk3
            rw [List.getElem?_append_left hk2] at hk3
            exact h4 k l hk1 hk3
          · rw [List.take_append_of_le_length (le_refl _), List.take_length]; exact h5
      · exact hold hr
    · intro hn
      change n ≠ [] at hn
      have he : e = none := hne hn
      subst he
      refine ⟨x, List.getElem?_concat_length P x, hc, ⟨m, hP⟩, ?_, ?_⟩
      · intro k l hk1 hk2
        change P.length < k at hk1
        have := (List.getElem?_eq_some.mp hk2).1
        simp at this; omega
      · show [] = sqlOf ((P ++ [x]).drop (P.length + 1))
        rw [List.drop_eq_nil_of_le (by simp)]; rfl
    · rw [expectedErrors_append_singleton, hc, hP]
      cases e <;> simp [herr]

/-- The loop of `GetQueries` returns and keeps the invariant. -/
theorem loop_inv (u : RangeTables) (cs : CommentSyntax) (rest : List GoString) :
    ∀ (P : List GoString) (st : ScanState), ScanInv u cs P st →
      ∃ st1, GetQueries.loop u cs st P.length rest = some st1 ∧ ScanInv u cs (P ++ rest) st1 := by
  induction rest with
  | nil =>
    intro P st h
    exact ⟨st, rfl, by simpa using h⟩
  | cons x rest ih =>
    intro P st h
    obtain ⟨st1, hs, hinv⟩ := step_inv u cs P st x h
    obtain ⟨st2, hl, hinv2⟩ := ih (P ++ [x]) st1 hinv
    refine ⟨st2, ?_, by simpa using hinv2⟩
    unfold GetQueries.loop
    rw [hs]
    simpa using hl

/-- The function `GetQueries` returns for every source text, with records and
errors as the invariant describes them over all the lines of the text. -/
theorem GetQueries_inv (u : RangeTables) (src : GoString) (cs : CommentSyntax) :
    ∃ qs, GetQueries u src cs = some (qs, expectedErrors u cs (Split src '\n')) ∧
      ∀ r ∈ qs, RecordOK u cs (Split src '\n') r := by
  have h0 : ScanInv u cs []
      { qs := [], next := { Name := [], SQL := [], Line := 0 }, merr := [] } := by
    refine ⟨fun r hr => absurd hr (List.not_mem_nil r), fun h => absurd rfl h, rfl⟩
  obtain ⟨st, hl, hq, _, he⟩ := loop_inv u cs (Split src '\n') [] _ h0
  rw [List.nil_append] at hq he
  refine ⟨st.qs, ?_, hq⟩
  have hl1 : GetQueries.loop u cs
      { qs := [], next := { Name := [], SQL := [], Line := 0 }, merr := [] } 0
      (Split src '\n') = some st := hl
  unfold GetQueries
  rw [hl1, ← he]
  rfl

/-! ## The block scanner -/

/-- The entries of the expected error list: the candidates on which `Parse`
returns an error. -/
theorem mem_expectedErrors (u : RangeTables) (cs : CommentSyntax) (lines : List GoString)
    (i : Nat) (e : GoError) :
    ({ Line := i, Err := e } : FileError) ∈ expectedErrors u cs lines ↔
      ∃ line n m, lines[i]? = some line ∧ isCandidate line cs = true ∧
        Parse u line cs = some (n, m, some e) := by
  unfold expectedErrors
  rw [List.mem_filterMap]
  constructor
  · rintro ⟨⟨k, line⟩, hmem, hf⟩
    have hk := List.mk_mem_enum_iff_getElem?.mp hmem
    dsimp only at hf
    split_ifs at hf with hc
    rcases hP : Parse u line cs with _ | ⟨n, m, _ | e1⟩
    · rw [hP] at hf; cases hf
    · rw [hP] at hf; cases hf
    · rw [hP] at hf
      simp only [Option.some.injEq, FileError.mk.injEq] at hf
      obtain ⟨rfl, rfl⟩ := hf
      exact ⟨line, n, m, hk, hc, hP⟩
  · rintro ⟨line, n, m, hk, hc, hP⟩
    refine ⟨(i, line), List.mk_mem_enum_iff_getElem?.mpr hk, ?_⟩
    simp [hc, hP]

/-- The expected errors of the lines `P` carry indices below the length of `P`,
in strictly ascending order. -/
theorem expectedErrors_sorted (u : RangeTables) (cs : CommentSyntax) (P : List GoString) :
    (∀ e ∈ expectedErrors u cs P, e.Line < P.length) ∧
      (expectedErrors u cs P).Pairwise (fun a b => a.Line < b.Line) := by
  induction P using List.reverseRecOn with
  | nil => exact ⟨fun e he => absurd he (List.not_mem_nil e), List.Pairwise.nil⟩
  | append_singleton P x ih =>
    obtain ⟨ih1, ih2⟩ := ih
    rw [expectedErrors_append_singleton]
    have hlast : ∀ b ∈ (if isCandidate x cs = true then
        match Parse u x cs with
        | some (_, _, some e) => [({ Line := P.length, Err := e } : FileError)]
        | _ => []
      else []), b.Line = P.length := by
      intro b hb
      split_ifs at hb
      · split at hb
        · rw [List.mem_singleton] at hb; rw [hb]
        · cases hb
      · cases hb
    have hpw : (if isCandidate x cs = true then
        match Parse u x cs with
        | some (_, _, some e) => [({ Line := P.length, Err := e } : FileError)]
        | _ => []
      else []).Pairwise (fun a b => a.Line < b.Line) := by
      split_ifs
      · split
        · exact List.pairwise_singleton _ _
        · exact List.Pairwise.nil
      · exact List.Pairwise.nil
    constructor
    · intro e he
      rw [List.length_append, List.length_singleton]
      rcases List.mem_append.mp he with he | he
      · have := ih1 e he; omega
      · have := hlast e he; omega
    · rw [List.pairwise_append]
      refine ⟨ih2, hpw, fun a ha b hb => ?_⟩
      rw [hlast b hb]; exact ih1 a ha

/-- Two candidates at different indices: the text has at least two candidates. -/
theorem two_candidates (cs : CommentSyntax) (L : List GoString) (a b : Nat) (x y : GoString)
    (hab : a < b) (hx : L[a]? = some x) (hy : L[b]? = some y)
    (hcx : isCandidate x cs = true) (hcy : isCandidate y cs = true) :
    2 ≤ L.countP (fun l => isCandidate l cs) := by
  rw [← List.take_append_drop b L, List.countP_append]
  have h1 : 0 < (L.take b).countP (fun l => isCandidate l cs) := by
    rw [List.countP_pos_iff]
    refine ⟨x, ?_, hcx⟩
    apply List.getElem?_mem (n := a)
    rw [List.getElem?_take, if_pos hab]; exact hx
  have h2 : 0 < (L.drop b).countP (fun l => isCandidate l cs) := by
    rw [List.countP_pos_iff]
    refine ⟨y, ?_, hcy⟩
    apply List.getElem?_mem (n := 0)
    rw [List.getElem?_drop]; exact hy
  omega

/-- C1: `GetQueries` returns, and every record it returns stands at the index
of an annotation candidate (non-empty `getPrefix` that the line starts with) on
which `Parse` returns the record's name and no error, with for SQL the
concatenation of `" " + l` over the lines from the next index up to, not
including, the next annotation candidate.  On the two-annotation example of the
spec, all dialects enabled, the result is the single record
`{Name: "get_user", SQL: " SELECT 1;", Line: 0}`. -/
theorem GetQueries_records (u : RangeTables) (src : GoString) (cs : CommentSyntax) :
    (∃ qs errs, GetQueries u src cs = some (qs, errs) ∧
      ∀ r ∈ qs, ∃ line j line1,
        (Split src '\n')[r.Line]? = some line ∧
        getPrefix line cs ≠ [] ∧ HasPrefix line (getPrefix line cs) = true ∧
        (∃ mode, Parse u line cs = some (r.Name, mode, none)) ∧
        r.Line < j ∧ (Split src '\n')[j]? = some line1 ∧ isCandidate line1 cs = true ∧
        (∀ k l, r.Line < k → k < j → (Split src '\n')[k]? = some l →
          isCandidate l cs = false) ∧
        r.SQL = ((((Split src '\n').take j).drop (r.Line + 1)).map fun l => ' ' :: l).flatten) ∧
    GetQueries u "-- name: get_user :one\nSELECT 1;\n-- name: get_all :many\nSELECT 2;\n".toList
        ⟨true, true, true⟩ =
      some ([{ Name := "get_user".toList, SQL := " SELECT 1;".toList, Line := 0 }], []) := by
  refine ⟨?_, rfl⟩
  obtain ⟨qs, hq, hr⟩ := GetQueries_inv u src cs
  refine ⟨qs, _, hq, fun r hmem => ?_⟩
  obtain ⟨line, j, line1, h1, h2, h3, h4, h5, h6, h7, h8⟩ := hr r hmem
  refine ⟨line, j, line1, h1, ?_, ?_, h3, h4, h5, h6, h7, h8⟩
  · unfold isCandidate at h2
    simp only [Bool.and_eq_true, bne_iff_ne, ne_eq] at h2
    exact h2.2
  · unfold isCandidate at h2
    simp only [Bool.and_eq_true] at h2
    exact h2.1

/-- C2: `GetQueries` returns, and no record it returns has the index of the
last annotation candidate of the text; a text with exactly one annotation
candidate gives no record, and the two-annotation example of the spec gives no
record for `get_all`, whose annotation is on line 2. -/
theorem GetQueries_drops_last (u : RangeTables) (src : GoString) (cs : CommentSyntax) :
    (∃ qs errs, GetQueries u src cs = some (qs, errs) ∧
      (∀ i line, (Split src '\n')[i]? = some line → isCandidate line cs = true →
        (∀ k l, i < k → (Split src '\n')[k]? = some l → isCandidate l cs = false) →
        ∀ r ∈ qs, r.Line ≠ i) ∧
      ((Split src '\n').countP (fun l => isCandidate l cs) = 1 → qs = [])) ∧
    (∃ qs errs,
      GetQueries u
        "-- name: get_user :one\nSELECT 1;\n-- name: get_all :many\nSELECT 2;\n".toList
        ⟨true, true, true⟩ = some (qs, errs) ∧
      ∀ r ∈ qs, r.Name ≠ "get_all".toList ∧ r.Line ≠ 2) ∧
    GetQueries u "-- name: get_user :one\nSELECT 1;\nSELECT 2;\nSELECT 3;\n".toList
      ⟨true, true, true⟩ = some ([], []) := by
  refine ⟨?_, ⟨[{ Name := "get_user".toList, SQL := " SELECT 1;".toList, Line := 0 }], [],
    rfl, ?_⟩, rfl⟩
  · obtain ⟨qs, hq, hr⟩ := GetQueries_inv u src cs
    refine ⟨qs, _, hq, ?_, ?_⟩
    · intro i line _ _ hlast r hmem hri
      obtain ⟨_, j, line1, _, _, _, h4, h5, h6, _, _⟩ := hr r hmem
      have := hlast j line1 (by omega) h5
      rw [h6] at this; cases this
    · intro hone
      cases qs with
      | nil => rfl
      | cons r rest =>
        obtain ⟨line, j, line1, h1, h2, _, h4, h5, h6, _, _⟩ := hr r (List.mem_cons_self _ _)
        have := two_candidates cs (Split src '\n') r.Line j line line1 h4 h1 h5 h2 h6
        omega
  · intro r hr
    rw [List.mem_singleton] at hr
    subst hr
    exact ⟨by decide, by decide⟩

/-- C8: `GetQueries` returns, and its error list is, in ascending line order,
one entry for each annotation candidate on which `Parse` returns an error, with
the index of the line and that error: an entry `(i, e)` is in the list exactly
when line `i` is a candidate and `Parse` returns the error `e` on it, whatever
the lines before it. -/
theorem GetQueries_errors (u : RangeTables) (src : GoString) (cs : CommentSyntax) :
    ∃ qs errs, GetQueries u src cs = some (qs, errs) ∧
      errs = expectedErrors u cs (Split src '\n') ∧
      errs.Pairwise (fun a b => a.Line < b.Line) ∧
      ∀ i e, ({ Line := i, Err := e } : FileError) ∈ errs ↔
        ∃ line n m, (Split src '\n')[i]? = some line ∧ isCandidate line cs = true ∧
          Parse u line cs = some (n, m, some e) := by
  obtain ⟨qs, hq, _⟩ := GetQueries_inv u src cs
  exact ⟨qs, _, hq, rfl, (expectedErrors_sorted u cs _).2,
    fun i e => mem_expectedErrors u cs _ i e⟩

/-- A line on which `getPrefix` is empty is not an annotation candidate. -/
theorem isCandidate_of_getPrefix_nil (line : GoString) (cs : CommentSyntax)
    (h : getPrefix line cs = []) : isCandidate line cs = false := by
  unfold isCandidate
  rw [h]
  simp

/-- A line starting with a disabled opener is not an annotation candidate. -/
theorem isCandidate_of_disabled (line : GoString) (cs : CommentSyntax)
    (h : (cs.Dash = false ∧ HasPrefix line "--".toList = true) ∨
      (cs.SlashStar = false ∧ HasPrefix line "/*".toList = true) ∨
      (cs.Hash = false ∧ HasPrefix line "#".toList = true)) :
    isCandidate line cs = false := by
  apply isCandidate_of_getPrefix_nil
  rcases h with ⟨hf, hp⟩ | ⟨hf, hp⟩ | ⟨hf, hp⟩
  · rw [(getPrefix_of_opener line cs).1 hp, hf]; rfl
  · rw [(getPrefix_of_opener line cs).2.1 hp, hf]; rfl
  · rw [(getPrefix_of_opener line cs).2.2.1 hp, hf]; rfl

/-- With the three dialects disabled no line is an annotation candidate. -/
theorem isCandidate_all_disabled (line : GoString) (cs : CommentSyntax)
    (hd : cs.Dash = false) (hs : cs.SlashStar = false) (hh : cs.Hash = false) :
    isCandidate line cs = false := by
  apply isCandidate_of_getPrefix_nil
  rw [getPrefix_eq, hd, hs, hh]
  simp

/-- C9: `GetQueries` returns, and a line starting with a disabled opener (`--`
with `Dash` false, `/*` with `SlashStar` false, `#` with `Hash` false) gives
neither a record nor an error at its index, the loop treating it as a text
line: appended to `next.SQL` when a statement is pending, dropped otherwise.
With the three flags false there is no record and no error.  In the example
the `#` annotation on line 2 is text of the statement `a`. -/
theorem GetQueries_disabled_dialect (u : RangeTables) (src : GoString) (cs : CommentSyntax) :
    (∃ qs errs, GetQueries u src cs = some (qs, errs) ∧
      (∀ i line, (Split src '\n')[i]? = some line →
        ((cs.Dash = false ∧ HasPrefix line "--".toList = true) ∨
          (cs.SlashStar = false ∧ HasPrefix line "/*".toList = true) ∨
          (cs.Hash = false ∧ HasPrefix line "#".toList = true)) →
        (∀ r ∈ qs, r.Line ≠ i) ∧ (∀ e ∈ errs, e.Line ≠ i) ∧
        ∀ st : ScanState, GetQueries.step u cs st i line =
          some (if st.next.Name ≠ [] then
            { st with next := { st.next with SQL := st.next.SQL ++ ' ' :: line } } else st)) ∧
      (cs.Dash = false ∧ cs.SlashStar = false ∧ cs.Hash = false → qs = [] ∧ errs = [])) ∧
    GetQueries u "-- name: a :one\nSELECT 1;\n# name: b :one\nx\n-- name: c :one".toList
        ⟨true, false, true⟩ =
      some ([{ Name := "a".toList, SQL := " SELECT 1; # name: b :one x".toList, Line := 0 }],
        []) := by
  refine ⟨?_, rfl⟩
  obtain ⟨qs, hq, hr⟩ := GetQueries_inv u src cs
  refine ⟨qs, _, hq, ?_, ?_⟩
  · intro i line hi hoff
    have hc := isCandidate_of_disabled line cs hoff
    refine ⟨?_, ?_, fun st => step_plain u cs st i line hc⟩
    · intro r hmem hri
      obtain ⟨line0, _, _, h1, h2, _⟩ := hr r hmem
      rw [hri, hi] at h1
      cases h1
      rw [hc] at h2; cases h2
    · rintro ⟨k, e⟩ hmem hk
      obtain ⟨line0, _, _, h1, h2, _⟩ := (mem_expectedErrors u cs _ k e).1 hmem
      change k = i at hk
      rw [hk, hi] at h1
      cases h1
      rw [hc] at h2; cases h2
  · rintro ⟨hd, hs, hh⟩
    constructor
    · cases qs with
      | nil => rfl
      | cons r rest =>
        obtain ⟨line0, _, _, _, h2, _⟩ := hr r (List.mem_cons_self _ _)
        rw [isCandidate_all_disabled line0 cs hd hs hh] at h2; cases h2
    · rw [List.eq_nil_iff_forall_not_mem]
      rintro ⟨k, e⟩ hmem
      obtain ⟨line0, _, _, _, h2, _⟩ := (mem_expectedErrors u cs _ k e).1 hmem
      rw [isCandidate_all_disabled line0 cs hd hs hh] at h2; cases h2

/-! ## Order and content of the records -/

/-- One iteration keeps the order invariant. -/
theorem step_order (u : RangeTables) (cs : CommentSyntax) (P : List GoString) (st st1 : ScanState)
    (x : GoString) (h : OrderInv P st)
    (hs : GetQueries.step u cs st P.length x = some st1) : OrderInv (P ++ [x]) st1 := by
  obtain ⟨hpw, hall, hle, hlt⟩ := h
  have hlen : (P ++ [x]).length = P.length + 1 := by simp
  cases hc : isCandidate x cs
  · rw [step_plain u cs st P.length x hc] at hs
    cases hs
    split_ifs with hn
    · refine ⟨hpw, hall, ?_, fun _ => ?_⟩
      · show st.next.Line ≤ (P ++ [x]).length
        omega
      · show st.next.Line < (P ++ [x]).length
        have := hlt hn; omega
    · refine ⟨hpw, hall, by omega, fun h => absurd h hn⟩
  · obtain ⟨n, m, e, hP, _⟩ := Parse_total u x cs
    rw [step_candidate u cs st P.length x n m e hc hP] at hs
    cases hs
    by_cases hflush : st.next.Name ≠ [] ∧ st.next.SQL ≠ []
    · have hl := hlt hflush.1
      refine ⟨?_, ?_, ?_, ?_⟩
      · show (if st.next.Name ≠ [] ∧ st.next.SQL ≠ [] then st.qs ++ [st.next]
          else st.qs).Pairwise _
        rw [if_pos hflush, List.pairwise_append]
        refine ⟨hpw, List.pairwise_singleton _ _, fun a ha b hb => ?_⟩
        rw [List.mem_singleton] at hb
        rw [hb]; exact (hall a ha).1
      · intro r hr
        change r ∈ (if st.next.Name ≠ [] ∧ st.next.SQL ≠ [] then st.qs ++ [st.next]
          else st.qs) at hr
        rw [if_pos hflush] at hr
        show r.Line < P.length ∧ _
        rcases List.mem_append.mp hr with hr | hr
        · have := hall r hr
          exact ⟨by omega, this.2⟩
        · rw [List.mem_singleton] at hr
          rw [hr]; exact ⟨hl, hflush⟩
      · show P.length ≤ (P ++ [x]).length
        omega
      · intro _
        show P.length < (P ++ [x]).length
        omega
    · refine ⟨?_, ?_, ?_, ?_⟩
      · show (if st.next.Name ≠ [] ∧ st.next.SQL ≠ [] then st.qs ++ [st.next]
          else st.qs).Pairwise _
        rw [if_neg hflush]; exact hpw
      · intro r hr
        change r ∈ (if st.next.Name ≠ [] ∧ st.next.SQL ≠ [] then st.qs ++ [st.next]
          else st.qs) at hr
        rw [if_neg hflush] at hr
        show r.Line < P.length ∧ _
        have := hall r hr
        exact ⟨by omega, this.2⟩
      · show P.length ≤ (P ++ [x]).length
        omega
      · intro _
        show P.length < (P ++ [x]).length
        omega

/-- The loop of `GetQueries` keeps the order invariant. -/
theorem loop_order (u : RangeTables) (cs : CommentSyntax) (rest : List GoString) :
    ∀ (P : List GoString) (st st1 : ScanState), OrderInv P st →
      GetQueries.loop u cs st P.length rest = some st1 → OrderInv (P ++ rest) st1 := by
  induction rest with
  | nil =>
    intro P st st1 h hl
    cases hl
    simpa using h
  | cons x rest ih =>
    intro P st st1 h hl
    unfold GetQueries.loop at hl
    cases hs : GetQueries.step u cs st P.length x with
    | none => rw [hs] at hl; cases hl
    | some st2 =>
      rw [hs] at hl
      have h2 := step_order u cs P st st2 x h hs
      have := ih (P ++ [x]) st2 st1 h2 (by simpa using hl)
      simpa using this

/-- The records returned by `GetQueries` have a name and a text and stand in
strictly ascending line order. -/
theorem GetQueries_order (u : RangeTables) (src : GoString) (cs : CommentSyntax)
    (qs : List Query) (errs : List FileError) (h : GetQueries u src cs = some (qs, errs)) :
    qs.Pairwise (fun a b => a.Line < b.Line) ∧ ∀ r ∈ qs, r.Name ≠ [] ∧ r.SQL ≠ [] := by
  unfold GetQueries at h
  cases hl : GetQueries.loop u cs
      { qs := [], next := { Name := [], SQL := [], Line := 0 }, merr := [] } 0 (Split src '\n') with
  | none => rw [hl] at h; cases h
  | some st =>
    rw [hl] at h
    simp only [Option.map_some', Option.some.injEq, Prod.mk.injEq] at h
    have h0 : OrderInv [] { qs := [], next := { Name := [], SQL := [], Line := 0 }, merr := [] } :=
      ⟨List.Pairwise.nil, fun r hr => absurd hr (List.not_mem_nil r), le_refl _,
        fun h => absurd rfl h⟩
    obtain ⟨h1, h2, _, _⟩ := loop_order u cs (Split src '\n') [] _ st h0 hl
    rw [← h.1]
    exact ⟨h1, fun r hr => (h2 r hr).2⟩

theorem sqlOf_nil : sqlOf [] = [] := rfl

/-- C11: `GetQueries` returns, every record it returns has a non-empty `Name`
and a non-empty `SQL`, and when an annotation candidate is immediately followed
by another annotation candidate no record has the index of the first. -/
theorem GetQueries_nonempty (u : RangeTables) (src : GoString) (cs : CommentSyntax) :
    ∃ qs errs, GetQueries u src cs = some (qs, errs) ∧
      (∀ r ∈ qs, r.Name ≠ [] ∧ r.SQL ≠ []) ∧
      ∀ i line line1, (Split src '\n')[i]? = some line → isCandidate line cs = true →
        (Split src '\n')[i + 1]? = some line1 → isCandidate line1 cs = true →
        ∀ r ∈ qs, r.Line ≠ i := by
  obtain ⟨qs, hq, hr⟩ := GetQueries_inv u src cs
  obtain ⟨_, hne⟩ := GetQueries_order u src cs qs _ hq
  refine ⟨qs, _, hq, hne, ?_⟩
  intro i line line1 _ _ h1 hc1 r hmem hri
  obtain ⟨_, j, _, _, _, _, h4, h5, _, h7, h8⟩ := hr r hmem
  have hj : j = i + 1 := by
    by_contra hne1
    have := h7 (i + 1) line1 (by omega) (by omega) h1
    rw [hc1] at this; cases this
  have hnil : ((Split src '\n').take j).drop (r.Line + 1) = [] := by
    apply List.drop_eq_nil_of_le
    rw [List.length_take]
    omega
  rw [hnil] at h8
  exact (hne r hmem).2 h8

/-- C16: `GetQueries` returns, the `Line` fields of its records are strictly
increasing along the record list and the `Line` fields of its errors are
strictly increasing along the error list. -/
theorem GetQueries_sorted (u : RangeTables) (src : GoString) (cs : CommentSyntax) :
    ∃ qs errs, GetQueries u src cs = some (qs, errs) ∧
      qs.Pairwise (fun a b => a.Line < b.Line) ∧
      errs.Pairwise (fun a b => a.Line < b.Line) := by
  obtain ⟨qs, hq, _⟩ := GetQueries_inv u src cs
  exact ⟨qs, _, hq, (GetQueries_order u src cs qs _ hq).1, (expectedErrors_sorted u cs _).2⟩

/-- C17: for a text none of whose lines is an annotation candidate, and so for
the empty text, `GetQueries` returns no record and no error. -/
theorem GetQueries_without_candidate (u : RangeTables) (src : GoString) (cs : CommentSyntax) :
    ((∀ l ∈ Split src '\n', isCandidate l cs = false) → GetQueries u src cs = some ([], [])) ∧
    GetQueries u [] cs = some ([], []) := by
  have key : ∀ s : GoString, (∀ l ∈ Split s '\n', isCandidate l cs = false) →
      GetQueries u s cs = some ([], []) := by
    intro s hno
    obtain ⟨qs, hq, hr⟩ := GetQueries_inv u s cs
    have h1 : qs = [] := by
      cases qs with
      | nil => rfl
      | cons r rest =>
        obtain ⟨line0, _, _, h1, h2, _⟩ := hr r (List.mem_cons_self _ _)
        rw [hno line0 (List.getElem?_mem h1)] at h2; cases h2
    have h2 : expectedErrors u cs (Split s '\n') = [] := by
      rw [List.eq_nil_iff_forall_not_mem]
      rintro ⟨k, e⟩ hmem
      obtain ⟨line0, _, _, h1, h2, _⟩ := (mem_expectedErrors u cs _ k e).1 hmem
      rw [hno line0 (List.getElem?_mem h1)] at h2; cases h2
    rw [hq, h1, h2]
  refine ⟨key src, key [] ?_⟩
  intro l hl
  have : l = [] := by simpa [Split] using hl
  subst this
  cases cs with
  | mk d h s => cases d <;> cases h <;> cases s <;> rfl

/-- Instance of `GetQueries_without_candidate`: two lines of SQL, all dialects
enabled. -/
theorem GetQueries_without_candidate_witness :
    GetQueries latin1Tables "SELECT 1;\nSELECT 2;".toList ⟨true, true, true⟩ = some ([], []) :=
  (GetQueries_without_candidate latin1Tables "SELECT 1;\nSELECT 2;".toList ⟨true, true, true⟩).1
    (by decide)

/-! ## Every statement followed by an annotation is flushed -/

theorem sqlOf_ne_nil (ls : List GoString) (h : ls ≠ []) : sqlOf ls ≠ [] := by
  cases ls with
  | nil => exact absurd rfl h
  | cons l rest => simp [sqlOf]

/-- An index of `P ++ [x]` is an index of `P` or the last one. -/
theorem getElem?_concat_cases (P : List GoString) (x l : GoString) (k : Nat)
    (h : (P ++ [x])[k]? = some l) : (k < P.length ∧ P[k]? = some l) ∨ (k = P.length ∧ l = x) := by
  by_cases hk : k < P.length
  · rw [List.getElem?_append_left hk] at h
    exact Or.inl ⟨hk, h⟩
  · have hk3 : k = P.length := by
      have := (List.getElem?_eq_some.mp h).1
      simp at this; omega
    subst hk3
    rw [List.getElem?_concat_length] at h
    cases h
    exact Or.inr ⟨rfl, rfl⟩

/-- One iteration keeps the flush invariant. -/
theorem step_flush (u : RangeTables) (cs : CommentSyntax) (P : List GoString) (st st1 : ScanState)
    (x : GoString) (h : FlushInv u cs P st)
    (hs : GetQueries.step u cs st P.length x = some st1) : FlushInv u cs (P ++ [x]) st1 := by
  obtain ⟨hlast, hdone⟩ := h
  cases hc : isCandidate x cs
  · -- a text line
    rw [step_plain u cs st P.length x hc] at hs
    cases hs
    constructor
    · intro i line n m e hi hci hno hP
      rcases getElem?_concat_cases P x line i hi with ⟨hip, hi1⟩ | ⟨_, rfl⟩
      · have hno1 : ∀ k l, i < k → P[k]? = some l → isCandidate l cs = false := by
          intro k l hk hl
          apply hno k l hk
          rw [List.getElem?_append_left (List.getElem?_eq_some.mp hl).1]; exact hl
        obtain ⟨h1, h2, h3⟩ := hlast i line n m e hi1 hci hno1 hP
        split_ifs with hn
        · refine ⟨h1, h2, fun hne => ?_⟩
          show st.next.SQL ++ ' ' :: x = sqlOf ((P ++ [x]).drop (i + 1))
          rw [List.drop_append_of_le_length (by omega), sqlOf_append, sqlOf_singleton, h3 hne]
        · refine ⟨h1, h2, fun hne => ?_⟩
          rw [h2] at hn
          exact absurd hne hn
      · rw [hc] at hci; cases hci
    · intro i line n m line1 j line2 hi hci hP hn hi1 hc1 hij hj hcj
      have hqs : (if st.next.Name ≠ [] then
          { st with next := { st.next with SQL := st.next.SQL ++ ' ' :: x } } else st).qs
          = st.qs := by
        split_ifs <;> rfl
      rw [hqs]
      rcases getElem?_concat_cases P x line2 j hj with ⟨hjp, hj1⟩ | ⟨_, rfl⟩
      · have hi0 : P[i]? = some line := by
          rw [List.getElem?_append_left (by omega)] at hi; exact hi
        have hi2 : P[i + 1]? = some line1 := by
          rw [List.getElem?_append_left (by omega)] at hi1; exact hi1
        exact hdone i line n m line1 j line2 hi0 hci hP hn hi2 hc1 hij hj1 hcj
      · rw [hc] at hcj; cases hcj
  · -- an annotation candidate
    obtain ⟨n0, m0, e0, hP0, _⟩ := Parse_total u x cs
    rw [step_candidate u cs st P.length x n0 m0 e0 hc hP0] at hs
    cases hs
    constructor
    · intro i line n m e hi hci hno hP
      rcases getElem?_concat_cases P x line i hi with ⟨hip, _⟩ | ⟨rfl, hlx⟩
      · have := hno P.length x hip (List.getElem?_concat_length P x)
        rw [hc] at this; cases this
      · rw [hlx, hP0] at hP
        simp only [Option.some.injEq, Prod.mk.injEq] at hP
        obtain ⟨rfl, _, _⟩ := hP
        refine ⟨rfl, rfl, fun _ => ?_⟩
        show [] = sqlOf ((P ++ [x]).drop (P.length + 1))
        rw [List.drop_eq_nil_of_le (by simp)]; rfl
    · intro i line n m line1 j line2 hi hci hP hn hi1 hc1 hij hj hcj
      show ∃ r ∈ (if st.next.Name ≠ [] ∧ st.next.SQL ≠ [] then st.qs ++ [st.next] else st.qs),
        r.Line = i
      have hold : (∃ r ∈ st.qs, r.Line = i) →
          ∃ r ∈ (if st.next.Name ≠ [] ∧ st.next.SQL ≠ [] then st.qs ++ [st.next] else st.qs),
            r.Line = i := by
        rintro ⟨r, hr, hri⟩
        refine ⟨r, ?_, hri⟩
        split_ifs
        · exact List.mem_append_left _ hr
        · exact hr
      -- the line after `i` is a text line, so it lies in `P`
      have hi1p : i + 1 < P.length ∧ P[i + 1]? = some line1 := by
        rcases getElem?_concat_cases P x line1 (i + 1) hi1 with h | ⟨_, rfl⟩
        · exact h
        · rw [hc] at hc1; cases hc1
      have hi0 : P[i]? = some line := by
        rw [List.getElem?_append_left (by omega)] at hi; exact hi
      by_cases hex : ∃ k l, i < k ∧ P[k]? = some l ∧ isCandidate l cs = true
      · obtain ⟨k, l, hik, hk, hck⟩ := hex
        exact hold (hdone i line n m line1 k l hi0 hci hP hn hi1p.2 hc1 hik hk hck)
      · have hno : ∀ k l, i < k → P[k]? = some l → isCandidate l cs = false := by
          intro k l hik hk
          cases hcl : isCandidate l cs
          · rfl
          · exact absurd ⟨k, l, hik, hk, hcl⟩ hex
        obtain ⟨h1, h2, h3⟩ := hlast i line n m none hi0 hci hno hP
        have hname : st.next.Name ≠ [] := by rw [h2]; exact hn
        have hsql : st.next.SQL ≠ [] := by
          rw [h3 hn]
          apply sqlOf_ne_nil
          intro hnil
          have := List.drop_eq_nil_iff.mp hnil
          omega
        refine ⟨st.next, ?_, h1⟩
        rw [if_pos ⟨hname, hsql⟩]
        exact List.mem_append_right _ (List.mem_singleton_self _)

/-- The loop of `GetQueries` keeps the flush invariant. -/
theorem loop_flush (u : RangeTables) (cs : CommentSyntax) (rest : List GoString) :
    ∀ (P : List GoString) (st st1 : ScanState), FlushInv u cs P st →
      GetQueries.loop u cs st P.length rest = some st1 → FlushInv u cs (P ++ rest) st1 := by
  induction rest with
  | nil =>
    intro P st st1 h hl
    cases hl
    simpa using h
  | cons x rest ih =>
    intro P st st1 h hl
    unfold GetQueries.loop at hl
    cases hs : GetQueries.step u cs st P.length x with
    | none => rw [hs] at hl; cases hl
    | some st2 =>
      rw [hs] at hl
      have h2 := step_flush u cs P st st2 x h hs
      have := ih (P ++ [x]) st2 st1 h2 (by simpa using hl)
      simpa using this

/-- The pieces of a text contain no separator. -/
theorem Split_mem_no_sep (s : GoString) (sep : Char) :
    ∀ l ∈ Split s sep, ∀ c ∈ l, c ≠ sep := by
  induction s with
  | nil =>
    intro l hl c hc
    simp [Split] at hl
    subst hl
    cases hc
  | cons a rest ih =>
    intro l hl c hc
    unfold Split at hl
    split_ifs at hl with ha
    · rcases List.mem_cons.mp hl with rfl | hl
      · cases hc
      · exact ih l hl c hc
    · cases hsp : Split rest sep with
      | nil => exact absurd hsp (Split_ne_nil rest sep)
      | cons h t =>
        rw [hsp] at hl ih
        rcases List.mem_cons.mp hl with rfl | hl
        · rcases List.mem_cons.mp hc with rfl | hc
          · exact ha
          · exact ih h (List.mem_cons_self _ _) c hc
        · exact ih l (List.mem_cons_of_mem _ hl) c hc

/-- When the checks of `Parse` return no error the name was accepted by
`validateQueryName`. -/
theorem Parse_check_ok (u : RangeTables) (line : GoString) (part : List GoString)
    (n m : GoString) (h : Parse.check u line part = some (n, m, none)) :
    validateQueryName u n = none := by
  by_cases h2 : part.length = 2
  · obtain ⟨p0, p1, rfl⟩ := List.length_eq_two.mp h2
    rw [Parse_check_two] at h
    simp at h
  by_cases h4 : part.length = 4
  · obtain ⟨p0, p1, n1, m1, rfl⟩ : ∃ p0 p1 n m, part = [p0, p1, n, m] := by
      rcases part with _ | ⟨a, _ | ⟨b, _ | ⟨c, _ | ⟨d, _ | ⟨e, l⟩⟩⟩⟩⟩ <;> simp at h4
      exact ⟨a, b, c, d, rfl⟩
    rw [Parse_check_four] at h
    split_ifs at h with hm
    · cases hv : validateQueryName u n1 with
      | none =>
        rw [hv] at h
        simp only [Option.some.injEq, Prod.mk.injEq] at h
        rw [← h.1]; exact hv
      | some err => rw [hv] at h; simp at h
    · simp at h
  · rw [Parse_check_other u line part h2 h4] at h
    simp at h

/-- On an annotation candidate of one line, `Parse` without error returns a
non-empty name. -/
theorem Parse_ok_name (u : RangeTables) (line : GoString) (cs : CommentSyntax) (n m : GoString)
    (hnl : ∀ c ∈ line, c ≠ '\n') (hc : isCandidate line cs = true)
    (h : Parse u line cs = some (n, m, none)) : n ≠ [] := by
  rw [Parse_line u line cs hnl, if_pos hc] at h
  have hv : validateQueryName u n = none := by
    cases hs : HasPrefix line "/*".toList
    · rw [Parse_body_plain u line hs] at h; exact Parse_check_ok u line _ n m h
    · rw [Parse_body_star u line hs] at h; exact Parse_check_ok u line _ n m h
  rintro rfl
  simp [validateQueryName] at hv

/-- In a list in strictly ascending line order at most one record has a given
line. -/
theorem countP_line_le_one (qs : List Query) (i : Nat)
    (h : qs.Pairwise (fun a b => a.Line < b.Line)) :
    qs.countP (fun r => r.Line == i) ≤ 1 := by
  induction qs with
  | nil => simp
  | cons r rest ih =>
    rw [List.pairwise_cons] at h
    have ih1 := ih h.2
    rw [List.countP_cons]
    by_cases hr : r.Line = i
    · have : rest.countP (fun r => r.Line == i) = 0 := by
        rw [List.countP_eq_zero]
        intro a ha
        have := h.1 a ha
        simp only [beq_iff_eq]
        omega
      simp [hr, this]
    · simp [hr, ih1]

/-- C12: `GetQueries` returns, and every annotation candidate at index `i` on
which `Parse` returns no error, whose next line exists and is not a candidate,
and which has some later candidate (on which `Parse` may fail), gives exactly
one record with `Line = i`. -/
theorem GetQueries_flush_complete (u : RangeTables) (src : GoString) (cs : CommentSyntax) :
    ∃ qs errs, GetQueries u src cs = some (qs, errs) ∧
      ∀ i line n m line1 j line2,
        (Split src '\n')[i]? = some line → isCandidate line cs = true →
        Parse u line cs = some (n, m, none) →
        (Split src '\n')[i + 1]? = some line1 → isCandidate line1 cs = false →
        i < j → (Split src '\n')[j]? = some line2 → isCandidate line2 cs = true →
        qs.countP (fun r => r.Line == i) = 1 ∧
          ∃ r ∈ qs, r.Line = i ∧ r.Name = n := by
  obtain ⟨qs, hq, hrec⟩ := GetQueries_inv u src cs
  obtain ⟨hpw, _⟩ := GetQueries_order u src cs qs _ hq
  refine ⟨qs, _, hq, ?_⟩
  intro i line n m line1 j line2 hi hci hP hi1 hc1 hij hj hcj
  have hn : n ≠ [] :=
    Parse_ok_name u line cs n m (Split_mem_no_sep src '\n' line (List.getElem?_mem hi)) hci hP
  -- the final state of the loop
  have hq1 := hq
  unfold GetQueries at hq1
  cases hl : GetQueries.loop u cs
      { qs := [], next := { Name := [], SQL := [], Line := 0 }, merr := [] } 0 (Split src '\n') with
  | none => rw [hl] at hq1; cases hq1
  | some st =>
    rw [hl] at hq1
    simp only [Option.map_some', Option.some.injEq, Prod.mk.injEq] at hq1
    have h0 : FlushInv u cs []
        { qs := [], next := { Name := [], SQL := [], Line := 0 }, merr := [] } := by
      constructor
      · intro i line n m e hi; simp at hi
      · intro i line n m line1 j line2 hi; simp at hi
    obtain ⟨_, hdone⟩ := loop_flush u cs (Split src '\n') [] _ st h0 hl
    rw [List.nil_append, hq1.1] at hdone
    obtain ⟨r, hr, hri⟩ := hdone i line n m line1 j line2 hi hci hP hn hi1 hc1 hij hj hcj
    have hname : r.Name = n := by
      obtain ⟨line0, _, _, h1, _, ⟨mode, h3⟩, _⟩ := hrec r hr
      rw [hri, hi] at h1
      cases h1
      rw [hP] at h3
      simp only [Option.some.injEq, Prod.mk.injEq] at h3
      exact h3.1.symm
    refine ⟨?_, r, hr, hri, hname⟩
    have hle := countP_line_le_one qs i hpw
    have hpos : 0 < qs.countP (fun r => r.Line == i) := by
      rw [List.countP_pos_iff]
      exact ⟨r, hr, by simp [hri]⟩
    omega

/-! ## Text before the first annotation -/

/-- The pieces of two texts joined by a separator. -/
theorem Split_append (xs ys : GoString) (sep : Char) :
    Split (xs ++ sep :: ys) sep = Split xs sep ++ Split ys sep := by
  induction xs with
  | nil => simp [Split]
  | cons c cs ih =>
    by_cases hc : c = sep
    · simp [Split, hc, ih]
    · cases hsp : Split cs sep with
      | nil => exact absurd hsp (Split_ne_nil cs sep)
      | cons h t => simp [Split, hc, ih, hsp]

/-- The loop of `GetQueries` over two runs of lines. -/
theorem loop_append (u : RangeTables) (cs : CommentSyntax) (A B : List GoString) :
    ∀ (st : ScanState) (i : Nat),
      GetQueries.loop u cs st i (A ++ B) =
        (GetQueries.loop u cs st i A).bind fun st1 =>
          GetQueries.loop u cs st1 (i + A.length) B := by
  induction A with
  | nil => intro st i; simp [GetQueries.loop]
  | cons x A ih =>
    intro st i
    simp only [List.cons_append, GetQueries.loop, List.length_cons]
    cases hs : GetQueries.step u cs st i x with
    | none => simp
    | some st2 =>
      simp only [Option.some_bind]
      have h := ih st2 (i + 1)
      have hi : i + 1 + A.length = i + (A.length + 1) := by omega
      rw [hi] at h
      exact h

/-- With no statement pending, text lines leave the state as it is. -/
theorem loop_idle (u : RangeTables) (cs : CommentSyntax) (A : List GoString)
    (hA : ∀ l ∈ A, isCandidate l cs = false) :
    ∀ (st : ScanState) (i : Nat), st.next.Name = [] →
      GetQueries.loop u cs st i A = some st := by
  induction A with
  | nil => intro st i _; rfl
  | cons x A ih =>
    intro st i hn
    unfold GetQueries.loop
    rw [step_plain u cs st i x (hA x (List.mem_cons_self _ _)), if_neg (by simpa using hn)]
    simp only [Option.some_bind]
    exact ih (fun l hl => hA l (List.mem_cons_of_mem _ hl)) st (i + 1) hn

/-- One iteration on the same line at two indices `k` apart. -/
theorem step_shift (u : RangeTables) (cs : CommentSyntax) (k : Nat) (st st1 : ScanState)
    (i : Nat) (x : GoString) (h : ShiftRel k st st1) :
    ∃ t t1, GetQueries.step u cs st i x = some t ∧
      GetQueries.step u cs st1 (i + k) x = some t1 ∧ ShiftRel k t t1 := by
  obtain ⟨hqs, herr, hname, hsql, hline⟩ := h
  cases hc : isCandidate x cs
  · refine ⟨_, _, step_plain u cs st i x hc, step_plain u cs st1 (i + k) x hc, ?_⟩
    by_cases hn : st.next.Name = []
    · have hn1 : st1.next.Name = [] := by rw [hname]; exact hn
      rw [if_neg (by simpa using hn), if_neg (by simpa using hn1)]
      exact ⟨hqs, herr, hname, hsql, hline⟩
    · have hn1 : st1.next.Name ≠ [] := by rw [hname]; exact hn
      rw [if_pos hn, if_pos hn1]
      refine ⟨hqs, herr, hname, ?_, hline⟩
      show st1.next.SQL ++ ' ' :: x = st.next.SQL ++ ' ' :: x
      rw [hsql]
  · obtain ⟨n, m, e, hP, _⟩ := Parse_total u x cs
    refine ⟨_, _, step_candidate u cs st i x n m e hc hP,
      step_candidate u cs st1 (i + k) x n m e hc hP, ?_, ?_, rfl, rfl, fun _ => rfl⟩
    · show (if st1.next.Name ≠ [] ∧ st1.next.SQL ≠ [] then st1.qs ++ [st1.next] else st1.qs) =
        (if st.next.Name ≠ [] ∧ st.next.SQL ≠ [] then st.qs ++ [st.next] else st.qs).map
          (shiftQuery k)
      rw [hname, hsql]
      split_ifs with hf
      · rw [List.map_append, hqs]
        congr 1
        have h1 := hline hf.1
        cases hst : st.next with
        | mk a b c =>
          cases hst1 : st1.next with
          | mk a1 b1 c1 =>
            rw [hst, hst1] at hname hsql h1
            simp only at hname hsql h1
            simp [shiftQuery, hname, hsql, h1]
      · exact hqs
    · show (match e with
        | some err => st1.merr ++ [({ Line := i + k, Err := err } : FileError)]
        | none => st1.merr) =
        (match e with
        | some err => st.merr ++ [({ Line := i, Err := err } : FileError)]
        | none => st.merr).map (shiftError k)
      cases e with
      | none => exact herr
      | some err => simp [herr, shiftError]

/-- The loop of `GetQueries` over the same lines at two indices `k` apart. -/
theorem loop_shift (u : RangeTables) (cs : CommentSyntax) (k : Nat) (ls : List GoString) :
    ∀ (st st1 : ScanState) (i : Nat), ShiftRel k st st1 →
      ∃ t t1, GetQueries.loop u cs st i ls = some t ∧
        GetQueries.loop u cs st1 (i + k) ls = some t1 ∧ ShiftRel k t t1 := by
  induction ls with
  | nil => intro st st1 i h; exact ⟨st, st1, rfl, rfl, h⟩
  | cons x ls ih =>
    intro st st1 i h
    obtain ⟨t, t1, hs, hs1, hrel⟩ := step_shift u cs k st st1 i x h
    obtain ⟨t2, t3, hl, hl1, hrel2⟩ := ih t t1 (i + 1) hrel
    refine ⟨t2, t3, ?_, ?_, hrel2⟩
    · unfold GetQueries.loop
      rw [hs]; exact hl
    · unfold GetQueries.loop
      rw [hs1]
      have : i + k + 1 = i + 1 + k := by omega
      rw [Option.some_bind, this]; exact hl1

/-- C18: when none of the `k` lines of the preamble `p` is an annotation
candidate, `GetQueries` on `p + "\n" + src` returns the records and the errors
it returns on `src`, each with its `Line` increased by `k` and nothing else
changed. -/
theorem GetQueries_preamble (u : RangeTables) (p src : GoString) (cs : CommentSyntax)
    (hp : ∀ l ∈ Split p '\n', isCandidate l cs = false) :
    ∃ qs errs, GetQueries u src cs = some (qs, errs) ∧
      GetQueries u (p ++ "\n".toList ++ src) cs =
        some (qs.map (shiftQuery (Split p '\n').length),
          errs.map (shiftError (Split p '\n').length)) := by
  have e : p ++ "\n".toList ++ src = p ++ '\n' :: src := by simp
  have h0 : ShiftRel (Split p '\n').length
      { qs := [], next := { Name := [], SQL := [], Line := 0 }, merr := [] }
      { qs := [], next := { Name := [], SQL := [], Line := 0 }, merr := [] } :=
    ⟨rfl, rfl, rfl, rfl, fun h => absurd rfl h⟩
  obtain ⟨t, t1, hl, hl1, hqs, herr, _⟩ := loop_shift u cs _ (Split src '\n') _ _ 0 h0
  refine ⟨t.qs, t.merr, ?_, ?_⟩
  · unfold GetQueries
    rw [hl]; rfl
  · unfold GetQueries
    rw [e, Split_append, loop_append, loop_idle u cs _ hp _ 0 rfl, Option.some_bind, hl1,
      ← hqs, ← herr]
    rfl

/-- Instance of `GetQueries_preamble`: two lines of text before the
two-annotation example. -/
theorem GetQueries_preamble_witness :
    GetQueries latin1Tables "-- name: a :one\nSELECT 1;\n-- name: b :one".toList
        ⟨true, true, true⟩ =
      some ([{ Name := "a".toList, SQL := " SELECT 1;".toList, Line := 0 }], []) ∧
    GetQueries latin1Tables
        "SELECT 0;\n\n-- name: a :one\nSELECT 1;\n-- name: b :one".toList ⟨true, true, true⟩ =
      some ([{ Name := "a".toList, SQL := " SELECT 1;".toList, Line := 2 }], []) := by
  obtain ⟨qs, errs, h1, h2⟩ := GetQueries_preamble latin1Tables "SELECT 0;\n".toList
    "-- name: a :one\nSELECT 1;\n-- name: b :one".toList ⟨true, true, true⟩ (by decide)
  have h3 : GetQueries latin1Tables "-- name: a :one\nSELECT 1;\n-- name: b :one".toList
      ⟨true, true, true⟩ =
      some ([{ Name := "a".toList, SQL := " SELECT 1;".toList, Line := 0 }], []) := by decide
  rw [h3] at h1
  simp only [Option.some.injEq, Prod.mk.injEq] at h1
  obtain ⟨rfl, rfl⟩ := h1
  exact ⟨h3, h2⟩

/-! ## Annotations on a `--` line, in general -/

/-- A `--` line with the marker `name:` and no line feed is an annotation
candidate when `Dash` is set. -/
theorem dash_rest_facts (rest : GoString) (cs : CommentSyntax)
    (hnl : ∀ c ∈ rest, c ≠ '\n') (hd : cs.Dash = true) :
    (∀ c ∈ "-- name: ".toList ++ rest, c ≠ '\n') ∧
    isCandidate ("-- name: ".toList ++ rest) cs = true ∧
    HasPrefix ("-- name: ".toList ++ rest) "/*".toList = false := by
  have hl : "-- name: ".toList ++ rest =
      '-' :: '-' :: ' ' :: 'n' :: 'a' :: 'm' :: 'e' :: ':' :: ' ' :: rest := by simp
  have hpre : HasPrefix ("-- name: ".toList ++ rest) "--".toList = true := by
    rw [hl]; rfl
  refine ⟨?_, ?_, ?_⟩
  · intro c hc
    rw [hl] at hc
    simp only [List.mem_cons] at hc
    rcases hc with rfl | rfl | rfl | rfl | rfl | rfl | rfl | rfl | rfl | hc <;>
      first | decide | exact hnl c hc
  · unfold isCandidate
    rw [(getPrefix_of_opener _ cs).1 hpre, hd, hl]
    rfl
  · rw [hl]; rfl

/-- The function `Parse` on a `--` line with the marker `name:` whose last
character is not white space: the checks run on the marker words and the
space-separated pieces of the rest. -/
theorem Parse_dash_rest (u : RangeTables) (rest : GoString) (z : Char) (cs : CommentSyntax)
    (hz : IsSpace z = false) (hnl : ∀ c ∈ rest ++ [z], c ≠ '\n') (hd : cs.Dash = true) :
    Parse u ("-- name: ".toList ++ (rest ++ [z])) cs =
      Parse.check u ("-- name: ".toList ++ (rest ++ [z]))
        ("--".toList :: "name:".toList :: Split (rest ++ [z]) ' ') := by
  obtain ⟨h1, h2, h3⟩ := dash_rest_facts (rest ++ [z]) cs hnl hd
  have hl2 : "-- name: ".toList ++ (rest ++ [z]) =
      '-' :: (('-' :: ' ' :: 'n' :: 'a' :: 'm' :: 'e' :: ':' :: ' ' :: rest) ++ [z]) := by simp
  have htrim : TrimSpace ("-- name: ".toList ++ (rest ++ [z])) =
      "-- name: ".toList ++ (rest ++ [z]) := by
    rw [hl2]
    exact TrimSpace_eq_self _ _ _ (by decide) (by simp)
      (fun c hc => by rw [List.mem_singleton] at hc; rw [hc]; exact hz)
  have hsplit : Split ("-- name: ".toList ++ (rest ++ [z])) ' ' =
      "--".toList :: "name:".toList :: Split (rest ++ [z]) ' ' := by
    have e : "-- name: ".toList ++ (rest ++ [z]) =
        "--".toList ++ ' ' :: ("name:".toList ++ ' ' :: (rest ++ [z])) := by simp
    rw [e, Split_append_sep _ _ _ (by decide), Split_append_sep _ _ _ (by decide)]
  rw [Parse_line u _ cs h1, if_pos h2, Parse_body_plain u _ h3, htrim, hsplit]

/-- A text ending with a non-empty token without white space ends with a
character that is not white space. -/
theorem token_last (pre m : GoString) (hm0 : m ≠ []) (hm : ∀ c ∈ m, IsSpace c = false) :
    ∃ init z, pre ++ m = init ++ [z] ∧ IsSpace z = false := by
  rcases List.eq_nil_or_concat m with h | ⟨m1, z, h⟩
  · exact absurd h hm0
  · have hmz : m = m1 ++ [z] := by simpa using h
    refine ⟨pre ++ m1, z, by rw [hmz, List.append_assoc], hm z (by rw [hmz]; simp)⟩

/-- C15: with `Dash` set, a name token without white space that
`validateQueryName` rejects with the error `err`, an accepted mode and a body
none of whose lines is an annotation candidate, `GetQueries` on
`"-- name: " + n + " " + m + "\n" + body` returns no record and the single
error `err` at line 0, `err` being one of the two invalid-query-name errors. -/
theorem GetQueries_invalid_name (u : RangeTables) (n m body : GoString) (cs : CommentSyntax)
    (err : GoError) (hn : ∀ c ∈ n, IsSpace c = false) (hv : validateQueryName u n = some err)
    (hm : m ∈ [CmdOne, CmdMany, CmdExec, CmdExecRows, CmdExecResult])
    (hbody : ∀ l ∈ Split body '\n', isCandidate l cs = false) (hd : cs.Dash = true) :
    GetQueries u ("-- name: ".toList ++ n ++ " ".toList ++ m ++ "\n".toList ++ body) cs =
      some ([], [{ Line := 0, Err := err }]) ∧
    (err = Errorf "invalid query name: %q" n ∨ err = Errorf "invalid query name %q" n) := by
  have hn1 := token_no_sep n hn
  obtain ⟨hm0, hws⟩ := mode_token m hm
  have hm1 := token_no_sep m hws
  have hP : Parse u ("-- name: ".toList ++ n ++ " ".toList ++ m) cs =
      some ([], [], some err) := by
    rw [Parse_dash_line u n m cs hn1 hm0 hws hd, Parse_check_four, TrimSpace_token m hws,
      if_pos hm, hv]
  have hrest : ∀ c ∈ n ++ ' ' :: m, c ≠ '\n' := by
    intro c hc
    rcases List.mem_append.mp hc with hc | hc
    · exact (hn1 c hc).2
    · rcases List.mem_cons.mp hc with rfl | hc
      · decide
      · exact (hm1 c hc).2
  have e0 : "-- name: ".toList ++ n ++ " ".toList ++ m = "-- name: ".toList ++ (n ++ ' ' :: m) := by
    simp
  obtain ⟨h1, h2, _⟩ := dash_rest_facts (n ++ ' ' :: m) cs hrest hd
  rw [← e0] at h1 h2
  constructor
  · have e : "-- name: ".toList ++ n ++ " ".toList ++ m ++ "\n".toList ++ body =
        ("-- name: ".toList ++ n ++ " ".toList ++ m) ++ '\n' :: body := by simp
    unfold GetQueries
    rw [e, Split_append_sep _ _ _ h1]
    unfold GetQueries.loop
    rw [step_candidate u cs _ 0 _ [] [] (some err) h2 hP]
    simp only [Option.some_bind]
    rw [loop_idle u cs _ hbody _ _ rfl]
    rfl
  · rcases (validateQueryName_cases u n).2 with h | h | h
    · rw [h] at hv; cases hv
    · rw [h] at hv; cases hv; exact Or.inl rfl
    · rw [h] at hv; cases hv; exact Or.inr rfl

/-- Instance of `GetQueries_invalid_name`: the name `bad-name` of the spec. -/
theorem GetQueries_invalid_name_witness :
    GetQueries latin1Tables "-- name: bad-name :one\nSELECT 1;\n".toList ⟨true, true, true⟩ =
      some ([], [{ Line := 0, Err := Errorf "invalid query name %q" "bad-name".toList }]) :=
  (GetQueries_invalid_name latin1Tables "bad-name".toList ":one".toList "SELECT 1;\n".toList
    ⟨true, true, true⟩ (Errorf "invalid query name %q" "bad-name".toList)
    (by decide) (by decide) (by decide) (by decide) rfl).1

/-! ## Separators, closing marker and order of the checks -/

/-- C13, as the spec states it, fails: with two spaces, or with a tab, between
the name and the mode `Parse` returns the invalid-query-comment error. -/
theorem Parse_whitespace_run_rejected :
    validateQueryName latin1Tables "foo".toList = none ∧
    Parse latin1Tables "-- name: foo  :one".toList ⟨true, false, false⟩ =
      some ([], [], some (Errorf "invalid query comment: %s" "-- name: foo  :one".toList)) ∧
    Parse latin1Tables "-- name: foo\t:one".toList ⟨true, false, false⟩ =
      some ([], [], some (Errorf "invalid query comment: %s" "-- name: foo\t:one".toList)) := by
  decide

/-- C13, amended: `Parse` splits the trimmed line at every single space: for a
valid name, an accepted mode and `Dash` set, the annotation with one space
between name and mode gives `(n, m, nil)`, the one with two spaces has five
parts and the one with a tab has three parts, and both get the
invalid-query-comment error. -/
theorem Parse_single_space (u : RangeTables) (n m : GoString) (cs : CommentSyntax)
    (hn : validateQueryName u n = none)
    (hm : m ∈ [CmdOne, CmdMany, CmdExec, CmdExecRows, CmdExecResult]) (hd : cs.Dash = true) :
    Parse u ("-- name: ".toList ++ n ++ " ".toList ++ m) cs = some (n, m, none) ∧
    Parse u ("-- name: ".toList ++ n ++ "  ".toList ++ m) cs =
      some ([], [], some (Errorf "invalid query comment: %s"
        ("-- name: ".toList ++ n ++ "  ".toList ++ m))) ∧
    Parse u ("-- name: ".toList ++ n ++ "\t".toList ++ m) cs =
      some ([], [], some (Errorf "invalid query comment: %s"
        ("-- name: ".toList ++ n ++ "\t".toList ++ m))) := by
  have hv := validIdentifier_no_sep u n ((validateQueryName_none_iff u n).1 hn)
  obtain ⟨hm0, hws⟩ := mode_token m hm
  have hm1 := token_no_sep m hws
  refine ⟨?_, ?_, ?_⟩
  · rw [Parse_dash_line u n m cs hv hm0 hws hd, Parse_check_four, TrimSpace_token m hws,
      if_pos hm, hn]
  · obtain ⟨init, z, he, hz⟩ := token_last (n ++ [' ', ' ']) m hm0 hws
    have e : "-- name: ".toList ++ n ++ "  ".toList ++ m =
        "-- name: ".toList ++ (n ++ [' ', ' '] ++ m) := by simp
    have hnl : ∀ c ∈ n ++ [' ', ' '] ++ m, c ≠ '\n' := by
      intro c hc
      simp only [List.mem_append, List.mem_cons, List.not_mem_nil, or_false] at hc
      rcases hc with (hc | rfl | rfl) | hc
      · exact (hv c hc).2
      · decide
      · decide
      · exact (hm1 c hc).2
    have hsp : Split (n ++ [' ', ' '] ++ m) ' ' = [n, [], m] := by
      have e2 : n ++ [' ', ' '] ++ m = n ++ ' ' :: ([] ++ ' ' :: m) := by simp
      rw [e2, Split_append_sep _ _ _ (fun c hc => (hv c hc).1),
        Split_append_sep _ _ _ (by simp), Split_no_sep _ _ (fun c hc => (hm1 c hc).1)]
    rw [e, he] at *
    rw [Parse_dash_rest u init z cs hz hnl hd, hsp, Parse_check_other _ _ _ (by simp) (by simp)]
  · obtain ⟨init, z, he, hz⟩ := token_last (n ++ ['\t']) m hm0 hws
    have e : "-- name: ".toList ++ n ++ "\t".toList ++ m =
        "-- name: ".toList ++ (n ++ ['\t'] ++ m) := by simp
    have hnl : ∀ c ∈ n ++ ['\t'] ++ m, c ≠ '\n' := by
      intro c hc
      simp only [List.mem_append, List.mem_cons, List.not_mem_nil, or_false] at hc
      rcases hc with (hc | rfl) | hc
      · exact (hv c hc).2
      · decide
      · exact (hm1 c hc).2
    have hsp : Split (n ++ ['\t'] ++ m) ' ' = [n ++ ['\t'] ++ m] := by
      apply Split_no_sep
      intro c hc
      simp only [List.mem_append, List.mem_cons, List.not_mem_nil, or_false] at hc
      rcases hc with (hc | rfl) | hc
      · exact (hv c hc).1
      · decide
      · exact (hm1 c hc).1
    rw [e, he] at *
    rw [Parse_dash_rest u init z cs hz hnl hd, hsp, Parse_check_other _ _ _ (by simp) (by simp)]

/-- Instance of `Parse_single_space`: the name `foo` with the mode `:one`. -/
theorem Parse_single_space_witness :
    Parse latin1Tables "-- name: foo :one".toList ⟨true, false, false⟩ =
      some ("foo".toList, ":one".toList, none) ∧
    Parse latin1Tables "-- name: foo  :one".toList ⟨true, false, false⟩ =
      some ([], [], some (Errorf "invalid query comment: %s" "-- name: foo  :one".toList)) ∧
    Parse latin1Tables "-- name: foo\t:one".toList ⟨true, false, false⟩ =
      some ([], [], some (Errorf "invalid query comment: %s" "-- name: foo\t:one".toList)) :=
  Parse_single_space latin1Tables "foo".toList ":one".toList ⟨true, false, false⟩
    (by decide) (by decide) rfl

/-- C14: a `/*` annotation whose last part is not `*/` is accepted all the
same: `Parse` drops the last part without looking at it, so
`/* name: foo :one junk` parses to `(foo, :one)` as `/* name: foo :one */`
does; only the line without any last part to drop is rejected. -/
theorem Parse_closer_unchecked :
    Parse latin1Tables "/* name: foo :one junk".toList ⟨false, false, true⟩ =
      some ("foo".toList, ":one".toList, none) ∧
    Parse latin1Tables "/* name: foo :one */".toList ⟨false, false, true⟩ =
      some ("foo".toList, ":one".toList, none) ∧
    Parse latin1Tables "/* name: foo :one".toList ⟨false, false, true⟩ =
      some ([], [], some (Errorf "invalid query comment: %s" "/* name: foo :one".toList)) := by
  decide

/-- C19: on an annotation candidate of four parts (the last part of a `/*`
line dropped) whose mode, trimmed as `Parse` reads it, is not an accepted
query type and whose name `validateQueryName` rejects with `err`, `Parse`
returns the invalid-query-type error, which is not `err`. -/
theorem Parse_mode_before_name (u : RangeTables) (line : GoString) (cs : CommentSyntax)
    (p0 p1 n m : GoString) (err : GoError)
    (hnl : ∀ c ∈ line, c ≠ '\n') (hc : isCandidate line cs = true)
    (hparts : (if HasPrefix line "/*".toList = true then (Split (TrimSpace line) ' ').dropLast
      else Split (TrimSpace line) ' ') = [p0, p1, n, m])
    (hm : TrimSpace m ∉ [CmdOne, CmdMany, CmdExec, CmdExecRows, CmdExecResult])
    (hv : validateQueryName u n = some err) :
    Parse u line cs = some ([], [], some (Errorf "invalid query type: %s" (TrimSpace m))) ∧
    Errorf "invalid query type: %s" (TrimSpace m) ≠ err := by
  constructor
  · rw [Parse_line u line cs hnl, if_pos hc]
    cases hs : HasPrefix line "/*".toList
    · rw [hs] at hparts
      simp only [Bool.false_eq_true, if_false] at hparts
      rw [Parse_body_plain u line hs, hparts, Parse_check_four, if_neg hm]
    · rw [hs] at hparts
      simp only [if_true] at hparts
      rw [Parse_body_star u line hs, hparts, Parse_check_four, if_neg hm]
  · rcases (validateQueryName_cases u n).2 with h | h | h
    · rw [h] at hv; cases hv
    · rw [h] at hv; cases hv; simp [Errorf]
    · rw [h] at hv; cases hv; simp [Errorf]

/-- Instance of `Parse_mode_before_name`: the line `-- name: bad-name :bogus`. -/
theorem Parse_mode_before_name_witness :
    Parse latin1Tables "-- name: bad-name :bogus".toList ⟨true, true, true⟩ =
      some ([], [], some (Errorf "invalid query type: %s" ":bogus".toList)) :=
  (Parse_mode_before_name latin1Tables "-- name: bad-name :bogus".toList ⟨true, true, true⟩
    "--".toList "name:".toList "bad-name".toList ":bogus".toList
    (Errorf "invalid query name %q" "bad-name".toList)
    (by decide) (by decide) (by decide) (by decide) (by decide)).1

/-! ## No run-time panic -/

/-- Trimming at the end does not go past a character that is not white space. -/
theorem rdropWhile_keep (pre : GoString) (d : Char) (hd : IsSpace d = false) (rest : GoString) :
    ∃ rest1, ((pre ++ d :: rest).reverse.dropWhile IsSpace).reverse = pre ++ d :: rest1 := by
  induction rest using List.reverseRecOn with
  | nil =>
    refine ⟨[], ?_⟩
    have : (pre ++ [d]).reverse = d :: pre.reverse := by simp
    rw [this, List.dropWhile_cons_of_neg (by simp [hd])]
    simp
  | append_singleton rest z ih =>
    have : (pre ++ d :: (rest ++ [z])).reverse = z :: (pre ++ d :: rest).reverse := by simp
    rw [this]
    cases hz : IsSpace z
    · refine ⟨rest ++ [z], ?_⟩
      rw [List.dropWhile_cons_of_neg (by simp [hz])]
      simp
    · rw [List.dropWhile_cons_of_pos (by simp [hz])]
      exact ih

/-- A `/*` annotation candidate has at least two parts. -/
theorem star_candidate_parts (line : GoString) (cs : CommentSyntax)
    (hc : isCandidate line cs = true) (hs : HasPrefix line "/*".toList = true) :
    2 ≤ (Split (TrimSpace line) ' ').length := by
  unfold isCandidate at hc
  have hp := (getPrefix_of_opener line cs).2.1 hs
  rw [hp] at hc
  cases hf : cs.SlashStar
  · rw [hf] at hc; simp at hc
  · rw [hf] at hc
    simp only [if_true, Bool.and_eq_true] at hc
    have hpre : HasPrefix line "/* name:".toList = true := hc.1
    obtain ⟨rest, hl⟩ : ∃ rest, line = '/' :: '*' :: ' ' :: 'n' :: rest := by
      unfold HasPrefix at hpre
      have := List.isPrefixOf_iff_prefix.mp hpre
      obtain ⟨t, ht⟩ := this
      exact ⟨'a' :: 'm' :: 'e' :: ':' :: t, by rw [← ht]; rfl⟩
    obtain ⟨rest1, hr⟩ := rdropWhile_keep ['/', '*', ' '] 'n' (by decide) rest
    have ht : TrimSpace line = "/*".toList ++ ' ' :: ('n' :: rest1) := by
      unfold TrimSpace
      rw [hl, List.dropWhile_cons_of_neg (by decide)]
      exact hr
    rw [ht, Split_append_sep _ _ _ (by decide), List.length_cons]
    have := List.length_pos.mpr (Split_ne_nil ('n' :: rest1) ' ')
    omega

/-- C20: `Parse` returns for every text: on a `/*` annotation candidate the
parts number at least two, so the slice `part[:len(part)-1]` is in range and
drops the last part; unless there are exactly four parts the checks return
one of the two errors on the part count, so `part[2]` and `part[3]` are read
on four parts only, where they exist; and `GetQueries` returns for every
text. -/
theorem Parse_no_panic (u : RangeTables) :
    (∀ (t : GoString) (cs : CommentSyntax), ∃ n m e, Parse u t cs = some (n, m, e)) ∧
    (∀ (line : GoString) (cs : CommentSyntax), isCandidate line cs = true →
      HasPrefix line "/*".toList = true →
      2 ≤ (Split (TrimSpace line) ' ').length ∧
      sliceTo (Split (TrimSpace line) ' ') (((Split (TrimSpace line) ' ').length : Int) - 1) =
        some (Split (TrimSpace line) ' ').dropLast) ∧
    (∀ (line : GoString) (part : List GoString), part.length ≠ 4 →
      Parse.check u line part = some ([], [], some (Errorf
        "missing query type [':one', ':many', ':exec', ':execrows', ':execresult']: %s" line)) ∨
      Parse.check u line part = some ([], [], some (Errorf "invalid query comment: %s" line))) ∧
    (∀ (line : GoString) (part : List GoString), part.length = 4 →
      (∃ a b, part[2]? = some a ∧ part[3]? = some b) ∧
      ∃ n m e, Parse.check u line part = some (n, m, e)) ∧
    (∀ (src : GoString) (cs : CommentSyntax), ∃ qs errs, GetQueries u src cs = some (qs, errs)) := by
  refine ⟨?_, ?_, ?_, ?_, ?_⟩
  · intro t cs
    obtain ⟨n, m, e, h, _⟩ := Parse_total u t cs
    exact ⟨n, m, e, h⟩
  · intro line cs hc hs
    have h2 := star_candidate_parts line cs hc hs
    refine ⟨h2, ?_⟩
    unfold sliceTo
    rw [if_pos (by omega)]
    congr 1
    rw [List.dropLast_eq_take]
    congr 1
    omega
  · intro line part h4
    by_cases h2 : part.length = 2
    · obtain ⟨p0, p1, rfl⟩ := List.length_eq_two.mp h2
      exact Or.inl (Parse_check_two u line p0 p1)
    · exact Or.inr (Parse_check_other u line part h2 h4)
  · intro line part h4
    obtain ⟨n, m, e, h, _⟩ := Parse_check_total u line part
    refine ⟨?_, n, m, e, h⟩
    rcases part with _ | ⟨a, _ | ⟨b, _ | ⟨c, _ | ⟨d, _ | ⟨e, l⟩⟩⟩⟩⟩ <;> simp at h4
    exact ⟨c, d, rfl, rfl⟩
  · intro src cs
    obtain ⟨qs, hq, _⟩ := GetQueries_inv u src cs
    exact ⟨qs, _, hq⟩

end Metadata
